import Mathlib

/-!
# Verification of the JSONL external-memory record merger

A shallow embedding of `merge_jsonl_mem_safe.py`: JSON-like values, the
canonical serializer (`json.dumps(value, sort_keys=True, separators=(',',':'))`),
the SHA-256 fingerprint, the SQLite-backed deduplicating field store
(`INSERT OR IGNORE` on the `(merge_key, field_name, value_hash)` primary key),
the merge-key registry (`INSERT OR REPLACE`), the streaming ingest loop and the
ordered export pass.  Numbers are modelled as integers (the arbitrary-precision
`int` case of Python's JSON model); floating-point JSON numbers are outside the
embedding.
-/

/-- JSON-like values: the tagged-variant data model of §3 of the spec
(`null`, boolean, number, string, array, mapping).  Mappings are association
lists in insertion order, as Python `dict`s preserve insertion order. -/
inductive J where
  | null
  | bool (b : Bool)
  | num (n : Int)
  | str (s : String)
  | arr (xs : List J)
  | obj (kvs : List (String × J))

namespace J

mutual
/-- Boolean equality on `J` (structural). -/
def beq : J → J → Bool
  | .null, .null => true
  | .bool a, .bool b => a == b
  | .num a, .num b => a == b
  | .str a, .str b => a == b
  | .arr a, .arr b => beqList a b
  | .obj a, .obj b => beqObj a b
  | _, _ => false

def beqList : List J → List J → Bool
  | [], [] => true
  | x :: xs, y :: ys => beq x y && beqList xs ys
  | _, _ => false

def beqObj : List (String × J) → List (String × J) → Bool
  | [], [] => true
  | (k, v) :: xs, (l, w) :: ys => k == l && beq v w && beqObj xs ys
  | _, _ => false
end

mutual
theorem beq_iff : ∀ a b : J, beq a b = true ↔ a = b
  | .null, b => by cases b <;> simp [beq]
  | .bool x, b => by cases b <;> simp [beq]
  | .num x, b => by cases b <;> simp [beq]
  | .str x, b => by cases b <;> simp [beq]
  | .arr xs, b => by
      cases b <;> simp [beq]
      exact beqList_iff xs _
  | .obj kvs, b => by
      cases b <;> simp [beq]
      exact beqObj_iff kvs _

theorem beqList_iff : ∀ a b : List J, beqList a b = true ↔ a = b
  | [], b => by cases b <;> simp [beqList]
  | x :: xs, b => by
      cases b with
      | nil => simp [beqList]
      | cons y ys =>
          simp only [beqList, Bool.and_eq_true, List.cons.injEq]
          exact and_congr (beq_iff x y) (beqList_iff xs ys)

theorem beqObj_iff : ∀ a b : List (String × J), beqObj a b = true ↔ a = b
  | [], b => by cases b <;> simp [beqObj]
  | (k, v) :: xs, b => by
      cases b with
      | nil => simp [beqObj]
      | cons p ys =>
          obtain ⟨l, w⟩ := p
          simp only [beqObj, Bool.and_eq_true, List.cons.injEq, Prod.mk.injEq, beq_iff_eq]
          rw [beq_iff v w, beqObj_iff xs ys]
end

instance : DecidableEq J := fun a b =>
  decidable_of_iff (beq a b = true) (beq_iff a b)

end J

/-! ## Byte-order comparison of strings

SQLite compares `TEXT` values by `memcmp` on their UTF-8 bytes and Python
compares `str` values lexicographically by code point; the two orders agree
(UTF-8 preserves code-point order).  `lexLe` is that common order. -/

/-- Lexicographic comparison of character lists by code point. -/
def lexLe : List Char → List Char → Bool
  | [], _ => true
  | _ :: _, [] => false
  | a :: as, b :: bs =>
      if a.toNat < b.toNat then true
      else if b.toNat < a.toNat then false
      else lexLe as bs

/-- Code-point lexicographic order on strings: the order used by Python's
`sorted` on `str` and by SQLite `ORDER BY` on `TEXT` columns. -/
def strLe (a b : String) : Bool := lexLe a.data b.data

theorem charEq_of_toNat {a b : Char} (h : a.toNat = b.toNat) : a = b := by
  apply Char.ext
  apply UInt32.ext
  exact h

theorem lexLe_cons {a b : Char} {as bs : List Char} :
    lexLe (a :: as) (b :: bs) = true ↔
      a.toNat < b.toNat ∨ (a.toNat = b.toNat ∧ lexLe as bs = true) := by
  simp only [lexLe]
  by_cases h₁ : a.toNat < b.toNat
  · simp [h₁]
  · by_cases h₂ : b.toNat < a.toNat
    · simp only [if_neg h₁, if_pos h₂]
      constructor
      · intro h; cases h
      · rintro (h | ⟨h, _⟩) <;> omega
    · simp only [if_neg h₁, if_neg h₂]
      constructor
      · intro h; exact .inr ⟨by omega, h⟩
      · rintro (h | ⟨_, h⟩)
        · omega
        · exact h

theorem lexLe_total : ∀ a b : List Char, lexLe a b = true ∨ lexLe b a = true
  | [], _ => .inl rfl
  | _ :: _, [] => .inr rfl
  | a :: as, b :: bs => by
      rcases Nat.lt_trichotomy a.toNat b.toNat with h | h | h
      · exact .inl (lexLe_cons.mpr (.inl h))
      · rcases lexLe_total as bs with hr | hr
        · exact .inl (lexLe_cons.mpr (.inr ⟨h, hr⟩))
        · exact .inr (lexLe_cons.mpr (.inr ⟨h.symm, hr⟩))
      · exact .inr (lexLe_cons.mpr (.inl h))

theorem lexLe_refl (a : List Char) : lexLe a a = true := by
  rcases lexLe_total a a with h | h <;> exact h

theorem lexLe_antisymm : ∀ a b : List Char, lexLe a b = true → lexLe b a = true → a = b
  | [], [], _, _ => rfl
  | [], _ :: _, _, h => by simp [lexLe] at h
  | _ :: _, [], h, _ => by simp [lexLe] at h
  | a :: as, b :: bs, h₁, h₂ => by
      rcases lexLe_cons.mp h₁ with h | ⟨he, hr⟩ <;>
        rcases lexLe_cons.mp h₂ with h' | ⟨he', hr'⟩
      · omega
      · omega
      · omega
      · rw [charEq_of_toNat he, lexLe_antisymm as bs hr hr']

theorem lexLe_trans : ∀ a b c : List Char, lexLe a b = true → lexLe b c = true →
    lexLe a c = true
  | [], _, _, _, _ => rfl
  | _ :: _, [], _, h, _ => by simp [lexLe] at h
  | _ :: _, _ :: _, [], _, h => by simp [lexLe] at h
  | a :: as, b :: bs, c :: cs, h₁, h₂ => by
      rcases lexLe_cons.mp h₁ with h | ⟨he, hr⟩ <;>
        rcases lexLe_cons.mp h₂ with h' | ⟨he', hr'⟩
      · exact lexLe_cons.mpr (.inl (by omega))
      · exact lexLe_cons.mpr (.inl (by omega))
      · exact lexLe_cons.mpr (.inl (by omega))
      · exact lexLe_cons.mpr (.inr ⟨by omega, lexLe_trans as bs cs hr hr'⟩)

theorem strLe_total (a b : String) : strLe a b = true ∨ strLe b a = true :=
  lexLe_total a.data b.data

theorem strLe_antisymm {a b : String} (h₁ : strLe a b = true) (h₂ : strLe b a = true) :
    a = b := by
  cases a; cases b
  exact congrArg String.mk (lexLe_antisymm _ _ h₁ h₂)

theorem strLe_trans {a b c : String} (h₁ : strLe a b = true) (h₂ : strLe b c = true) :
    strLe a c = true :=
  lexLe_trans a.data b.data c.data h₁ h₂

theorem strLe_refl (a : String) : strLe a a = true := lexLe_refl a.data

/-! ## The Value Codec: `serialize_value`

`serialize_value(value)` in the source is
`json.dumps(value, sort_keys=True, separators=(',', ':'))`: compact JSON text
with `ensure_ascii` escaping and all mapping keys sorted recursively.  We model
it as compact printing (`dumps`) of the recursively key-sorted value (`canon`),
which is exactly what `sort_keys=True` produces. -/

/-- The decimal digit character for `n < 10`. -/
def digitChar (n : Nat) : Char := Char.ofNat (48 + n)

/-- Lowercase hexadecimal digit character for `n < 16`, as produced by
Python's `'\\u{0:04x}'.format(n)`. -/
def hexDigitChar (n : Nat) : Char :=
  if n < 10 then Char.ofNat (48 + n) else Char.ofNat (87 + n)

/-- Four lowercase hex digits, most significant first. -/
def hex4 (n : Nat) : List Char :=
  [hexDigitChar ((n >>> 12) % 16), hexDigitChar ((n >>> 8) % 16),
   hexDigitChar ((n >>> 4) % 16), hexDigitChar (n % 16)]

/-- Decimal digits of `n`, most significant first (fuel-indexed; `fuel ≥ n + 1`
always suffices). -/
def natDigits : Nat → Nat → List Char
  | 0, _ => []
  | fuel + 1, n =>
      if n < 10 then [digitChar n]
      else natDigits fuel (n / 10) ++ [digitChar (n % 10)]

/-- Decimal representation of a natural number, as Python's `str`. -/
def natRepr (n : Nat) : List Char := natDigits (n + 1) n

/-- Decimal representation of an integer, as Python's `str` / `json.dumps`. -/
def intRepr (n : Int) : List Char :=
  if n < 0 then '-' :: natRepr n.natAbs else natRepr n.toNat

/-- Escape one character the way `json.dumps` does with `ensure_ascii=True`:
the seven short escapes, printable ASCII verbatim, `\uXXXX` for everything
else, with a surrogate pair for code points above `0xFFFF`. -/
def escapeChar (c : Char) : List Char :=
  let n := c.toNat
  if n = 34 then ['\\', '"']
  else if n = 92 then ['\\', '\\']
  else if n = 8 then ['\\', 'b']
  else if n = 12 then ['\\', 'f']
  else if n = 10 then ['\\', 'n']
  else if n = 13 then ['\\', 'r']
  else if n = 9 then ['\\', 't']
  else if 32 ≤ n ∧ n ≤ 126 then [c]
  else if n < 65536 then '\\' :: 'u' :: hex4 n
  else ('\\' :: 'u' :: hex4 (55296 + (n - 65536) / 1024)) ++
       ('\\' :: 'u' :: hex4 (56320 + (n - 65536) % 1024))

/-- A JSON string literal: quote, escaped characters, quote. -/
def dumpStr (s : String) : List Char :=
  '"' :: s.data.flatMap escapeChar ++ ['"']

mutual
/-- Compact JSON text (`separators=(',', ':')`), mapping keys in the order
they appear in the value — the behaviour of `json.dump(doc, output_file,
separators=(',', ':'))` in `export_merged_data`. -/
def dumps : J → List Char
  | .null => ['n', 'u', 'l', 'l']
  | .bool b => if b then ['t', 'r', 'u', 'e'] else ['f', 'a', 'l', 's', 'e']
  | .num n => intRepr n
  | .str s => dumpStr s
  | .arr xs => '[' :: dumpsList xs ++ [']']
  | .obj kvs => '{' :: dumpsObj kvs ++ ['}']

def dumpsList : List J → List Char
  | [] => []
  | [x] => dumps x
  | x :: y :: xs => dumps x ++ ',' :: dumpsList (y :: xs)

def dumpsObj : List (String × J) → List Char
  | [] => []
  | [(k, v)] => dumpStr k ++ ':' :: dumps v
  | (k, v) :: p :: kvs => (dumpStr k ++ ':' :: dumps v) ++ ',' :: dumpsObj (p :: kvs)
end

/-- Order on mapping entries by key, in the code-point order Python's
`sorted` uses on `str`. -/
def pairLe (p q : String × J) : Prop := strLe p.1 q.1 = true

instance : DecidableRel pairLe :=
  fun p q => decidable_of_iff (strLe p.1 q.1 = true) Iff.rfl

instance : IsTotal (String × J) pairLe := ⟨fun p q => strLe_total p.1 q.1⟩

instance : IsTrans (String × J) pairLe := ⟨fun _ _ _ => strLe_trans⟩

/-- Stable sort of mapping entries by key (Python's `sorted(items)` on keys,
which is what `sort_keys=True` applies at every nesting level). -/
def sortPairs (kvs : List (String × J)) : List (String × J) :=
  List.insertionSort pairLe kvs

mutual
/-- Recursively sort every mapping's entries by key.  `canon v` is the
key-order canonical form of `v`; `json.dumps(v, sort_keys=True)` prints it. -/
def canon : J → J
  | .null => .null
  | .bool b => .bool b
  | .num n => .num n
  | .str s => .str s
  | .arr xs => .arr (canonList xs)
  | .obj kvs => .obj (sortPairs (canonObj kvs))

def canonList : List J → List J
  | [] => []
  | x :: xs => canon x :: canonList xs

def canonObj : List (String × J) → List (String × J)
  | [] => []
  | (k, v) :: kvs => (k, canon v) :: canonObj kvs
end

/-- `serialize_value` of the source: canonical compact JSON text with sorted
mapping keys. -/
def serialize_value (v : J) : String := ⟨dumps (canon v)⟩

example : serialize_value (.obj [("b", .num 2), ("a", .num 1), ("~", .arr [.num 1, .bool true, .null])]) =
    "\x7b\"a\":1,\"b\":2,\"~\":[1,true,null]\x7d" := by decide

example : serialize_value (.num (-12)) = "-12" := by decide

example : serialize_value (.str "é") = "\"\\u00e9\"" := by decide

example : serialize_value (.str "😀") = "\"\\ud83d\\ude00\"" := by decide

example : serialize_value (.str "a\nb") = "\"a\\nb\"" := by decide

example : serialize_value (.arr [.str "x", .str "\\", .str "\""]) =
    "[\"x\",\"\\\\\",\"\\\"\"]" := by decide

/-! ## The fingerprint: `hash_value`

`hash_value(value)` is `hashlib.sha256(serialized.encode('utf-8')).hexdigest()`
of the canonical serialization.  SHA-256 is implemented here in full so the
deduplication key of the store is exactly the one the source computes. -/

/-- UTF-8 encoding of a string as byte values, as Python's `str.encode('utf-8')`.
(All canonical serializations are pure ASCII because of `ensure_ascii`, but the
encoder is total.) -/
def utf8Bytes (s : String) : List Nat :=
  s.data.flatMap fun c =>
    let n := c.toNat
    if n < 128 then [n]
    else if n < 2048 then [192 + n / 64, 128 + n % 64]
    else if n < 65536 then [224 + n / 4096, 128 + (n / 64) % 64, 128 + n % 64]
    else [240 + n / 262144, 128 + (n / 4096) % 64, 128 + (n / 64) % 64, 128 + n % 64]

/-- `2^32`, the word modulus of SHA-256. -/
def M32 : Nat := 4294967296

/-- Right rotation of a 32-bit word. -/
def rotr32 (n x : Nat) : Nat := ((x >>> n) ||| (x <<< (32 - n))) % M32

def shaBigSigma0 (x : Nat) : Nat := rotr32 2 x ^^^ rotr32 13 x ^^^ rotr32 22 x
def shaBigSigma1 (x : Nat) : Nat := rotr32 6 x ^^^ rotr32 11 x ^^^ rotr32 25 x
def shaSmallSigma0 (x : Nat) : Nat := rotr32 7 x ^^^ rotr32 18 x ^^^ (x >>> 3)
def shaSmallSigma1 (x : Nat) : Nat := rotr32 17 x ^^^ rotr32 19 x ^^^ (x >>> 10)

/-- The 64 SHA-256 round constants. -/
def shaK : List Nat :=
  [1116352408, 1899447441, 3049323471, 3921009573, 961987163, 1508970993, 2453635748, 2870763221,
   3624381080, 310598401, 607225278, 1426881987, 1925078388, 2162078206, 2614888103, 3248222580,
   3835390401, 4022224774, 264347078, 604807628, 770255983, 1249150122, 1555081692, 1996064986,
   2554220882, 2821834349, 2952996808, 3210313671, 3336571891, 3584528711, 113926993, 338241895,
   666307205, 773529912, 1294757372, 1396182291, 1695183700, 1986661051, 2177026350, 2456956037,
   2730485921, 2820302411, 3259730800, 3345764771, 3516065817, 3600352804, 4094571909, 275423344,
   430227734, 506948616, 659060556, 883997877, 958139571, 1322822218, 1537002063, 1747873779,
   1955562222, 2024104815, 2227730452, 2361852424, 2428436474, 2756734187, 3204031479, 3329325298]

/-- SHA-256 padding: `0x80`, zeros, then the 64-bit big-endian bit length. -/
def shaPad (msg : List Nat) : List Nat :=
  let len := msg.length
  let k := (119 - len % 64) % 64
  let bitLen := 8 * len
  msg ++ [0x80] ++ List.replicate k 0 ++
    [(bitLen >>> 56) % 256, (bitLen >>> 48) % 256, (bitLen >>> 40) % 256, (bitLen >>> 32) % 256,
     (bitLen >>> 24) % 256, (bitLen >>> 16) % 256, (bitLen >>> 8) % 256, bitLen % 256]

/-- Group bytes into big-endian 32-bit words. -/
def shaWords : List Nat → List Nat
  | a :: b :: c :: d :: rest => (a * 16777216 + b * 65536 + c * 256 + d) :: shaWords rest
  | _ => []

/-- Group words into 16-word blocks. -/
def shaBlocks : List Nat → List (List Nat)
  | w0 :: w1 :: w2 :: w3 :: w4 :: w5 :: w6 :: w7 ::
    w8 :: w9 :: w10 :: w11 :: w12 :: w13 :: w14 :: w15 :: rest =>
      [w0, w1, w2, w3, w4, w5, w6, w7, w8, w9, w10, w11, w12, w13, w14, w15] :: shaBlocks rest
  | _ => []

/-- Message-schedule extension; `acc` holds the words produced so far,
most recent first. -/
def shaExtend : Nat → List Nat → List Nat
  | 0, acc => acc.reverse
  | fuel + 1, acc =>
      shaExtend fuel
        (((shaSmallSigma1 (acc.getD 1 0) + acc.getD 6 0 +
           shaSmallSigma0 (acc.getD 14 0) + acc.getD 15 0) % M32) :: acc)

/-- The eight SHA-256 working variables. -/
structure Sha8 where
  a : Nat
  b : Nat
  c : Nat
  d : Nat
  e : Nat
  f : Nat
  g : Nat
  h : Nat

/-- One SHA-256 round. -/
def shaRound (st : Sha8) (kw : Nat × Nat) : Sha8 :=
  let ch := (st.e &&& st.f) ^^^ ((st.e ^^^ (M32 - 1)) &&& st.g)
  let maj := (st.a &&& st.b) ^^^ (st.a &&& st.c) ^^^ (st.b &&& st.c)
  let t1 := (st.h + shaBigSigma1 st.e + ch + kw.1 + kw.2) % M32
  let t2 := (shaBigSigma0 st.a + maj) % M32
  ⟨(t1 + t2) % M32, st.a, st.b, st.c, (st.d + t1) % M32, st.e, st.f, st.g⟩

/-- Compress one 16-word block into the running hash state. -/
def shaCompress (hs : Sha8) (block : List Nat) : Sha8 :=
  let ws := shaExtend 48 block.reverse
  let fin := (shaK.zip ws).foldl shaRound hs
  ⟨(hs.a + fin.a) % M32, (hs.b + fin.b) % M32, (hs.c + fin.c) % M32, (hs.d + fin.d) % M32,
   (hs.e + fin.e) % M32, (hs.f + fin.f) % M32, (hs.g + fin.g) % M32, (hs.h + fin.h) % M32⟩

/-- The SHA-256 initial hash state. -/
def shaInit : Sha8 :=
  ⟨0x6a09e667, 0xbb67ae85, 0x3c6ef372, 0xa54ff53a, 0x510e527f, 0x9b05688c, 0x1f83d9ab, 0x5be0cd19⟩

/-- A 32-bit word as eight lowercase hex characters. -/
def hexWord (w : Nat) : List Char :=
  [hexDigitChar ((w >>> 28) % 16), hexDigitChar ((w >>> 24) % 16), hexDigitChar ((w >>> 20) % 16),
   hexDigitChar ((w >>> 16) % 16), hexDigitChar ((w >>> 12) % 16), hexDigitChar ((w >>> 8) % 16),
   hexDigitChar ((w >>> 4) % 16), hexDigitChar (w % 16)]

/-- SHA-256 of a byte string as a lowercase hex string
(`hashlib.sha256(...).hexdigest()`). -/
def sha256hex (msg : List Nat) : String :=
  let hs := (shaBlocks (shaWords (shaPad msg))).foldl shaCompress shaInit
  ⟨hexWord hs.a ++ hexWord hs.b ++ hexWord hs.c ++ hexWord hs.d ++
   hexWord hs.e ++ hexWord hs.f ++ hexWord hs.g ++ hexWord hs.h⟩

/-- `hash_value` of the source: SHA-256 hex digest of the UTF-8 bytes of the
canonical serialization. -/
def hash_value (v : J) : String := sha256hex (utf8Bytes (serialize_value v))

example : hash_value (.str "Alice") =
    "1ea1f9a444bb86b501e41444eb1c2566be1bc895f9e3322ade1e63f5578b0612" := by decide

/-! ## The disk-backed store

`open_sqlite` creates two tables: `merge_keys (merge_key PRIMARY KEY, key_value)`
and `field_values (merge_key, field_name, value_hash, value_data,
PRIMARY KEY (merge_key, field_name, value_hash))`.  A table is a list of rows;
physical row order is unobservable (the export pass sorts), and the primary
keys drive `INSERT OR REPLACE` / `INSERT OR IGNORE` conflict handling. -/

/-- One row of the `field_values` table. -/
structure Row where
  mergeKey : String
  fieldName : String
  valueHash : String
  valueData : String
  deriving DecidableEq

/-- The scratch database: the `merge_keys` table (as `(merge_key, key_value)`
pairs) and the `field_values` table. -/
structure DB where
  mergeKeys : List (String × String)
  fieldValues : List Row
  deriving DecidableEq

/-- `open_sqlite` on a fresh path: both tables empty. -/
def open_sqlite : DB := ⟨[], []⟩

/-- Two `field_values` rows conflict when they agree on the
`(merge_key, field_name, value_hash)` primary key. -/
def samePK (r s : Row) : Bool :=
  r.mergeKey == s.mergeKey && r.fieldName == s.fieldName && r.valueHash == s.valueHash

/-- `INSERT OR IGNORE` of one row: dropped when a row with the same primary
key is present, appended otherwise. -/
def insertRowIgnore (t : List Row) (r : Row) : List Row :=
  if t.any (samePK · r) then t else t ++ [r]

/-- `insert_field_values_batch`: `executemany` of `INSERT OR IGNORE` over the
batch, in batch order.  (The source's early return on an empty batch is the
identity, as here.) -/
def insert_field_values_batch (db : DB) (batch : List Row) : DB :=
  { db with fieldValues := batch.foldl insertRowIgnore db.fieldValues }

/-- `INSERT OR REPLACE` into `merge_keys`: replaces the row with the same
primary key, else appends. -/
def insertOrReplaceKey (t : List (String × String)) (k v : String) :
    List (String × String) :=
  if t.any (·.1 == k) then t.map (fun p => if p.1 == k then (k, v) else p)
  else t ++ [(k, v)]

/-! ## Python dynamic-typing semantics at the two lookup sites

The source checks `merge_key_field not in doc` and reads
`doc[merge_key_field]` on whatever `json.loads` returned.  On a non-`dict`
these are the Python operators `in` and `[]`, which fail with `TypeError` on
numbers, booleans and `None`, do substring / membership tests on strings and
lists, and fail with `TypeError` on subscripting a string or list by a
string key.  Any such exception escapes to the catch-all handler in
`stream_merge_jsonl_optimized`, which prints `Error: ...` and exits —
a fatal outcome. -/

/-- An exception escaping to the `except Exception` handler (fatal:
`sys.exit(1)`), or a `json.loads` failure inside the export pass. -/
inductive PyErr where
  | notIterable (tyName : String)  -- `key in doc` on a number, boolean or None
  | strIndices                     -- `doc[key]` on a str
  | listIndices                    -- `doc[key]` on a list
  | keyError (k : String)          -- dict lookup miss (unreachable here)
  | attributeItems                 -- `.items()` on a non-dict (unreachable here)
  | codecFailure                   -- `json.loads` failure during export
  deriving DecidableEq

/-- Is `needle` a prefix of `hay`? -/
def listPrefixB : List Char → List Char → Bool
  | [], _ => true
  | _ :: _, [] => false
  | a :: as, b :: bs => a == b && listPrefixB as bs

def substrAux (needle : List Char) : List Char → Bool
  | [] => listPrefixB needle []
  | c :: rest => listPrefixB needle (c :: rest) || substrAux needle rest

/-- Python's `needle in hay` on strings: substring containment. -/
def isSubstr (needle hay : String) : Bool := substrAux needle.data hay.data

/-- Python's `key in v` for a parsed JSON value `v`. -/
def pyContains (v : J) (key : String) : Except PyErr Bool :=
  match v with
  | .obj kvs => .ok (kvs.any (·.1 == key))
  | .str s => .ok (isSubstr key s)
  | .arr xs => .ok (xs.any (· == .str key))
  | .num _ => .error (.notIterable "int")
  | .bool _ => .error (.notIterable "bool")
  | .null => .error (.notIterable "NoneType")

/-- Python's `v[key]` for a parsed JSON value `v` and string key. -/
def pyGetItem (v : J) (key : String) : Except PyErr J :=
  match v with
  | .obj kvs =>
      match kvs.find? (·.1 == key) with
      | some p => .ok p.2
      | none => .error (.keyError key)
  | .str _ => .error .strIndices
  | .arr _ => .error .listIndices
  | _ => .error .strIndices

/-- Python's `v.items()`. -/
def pyItems (v : J) : Except PyErr (List (String × J)) :=
  match v with
  | .obj kvs => .ok kvs
  | _ => .error .attributeItems

/-! ## `process_document` -/

/-- The rows a single field contributes: array values are flattened one
level (one row per element), any other value contributes one row
(`process_document`, lines 112–122). -/
def rowsOfField (mergeKeyStr fieldName : String) (v : J) : List Row :=
  match v with
  | .arr elems =>
      elems.map fun item => Row.mk mergeKeyStr fieldName (hash_value item) (serialize_value item)
  | _ => [Row.mk mergeKeyStr fieldName (hash_value v) (serialize_value v)]

/-- `process_document(conn, doc, merge_key_field, batch_data, batch_size)`:
registers the merge key, appends one batch row per field value (arrays
flattened one level), and flushes the batch when it reaches `batch_size`. -/
def process_document (db : DB) (doc : J) (mergeKeyField : String)
    (batch : List Row) (batchSize : Nat) : Except PyErr (DB × List Row) := do
  let contains ← pyContains doc mergeKeyField
  if !contains then
    return (db, batch)
  let mergeKeyValue ← pyGetItem doc mergeKeyField
  let mergeKeyStr := serialize_value mergeKeyValue
  let db := { db with
    mergeKeys := insertOrReplaceKey db.mergeKeys mergeKeyStr (serialize_value mergeKeyValue) }
  let items ← pyItems doc
  let batch := batch ++
    (items.filter (·.1 != mergeKeyField)).flatMap fun kv => rowsOfField mergeKeyStr kv.1 kv.2
  if batch.length ≥ batchSize then
    return (insert_field_values_batch db batch, [])
  else
    return (db, batch)

/-! ## The stream ingest loop -/

/-- One input line after `strip()` and `json.loads`: blank, malformed JSON
(with the decoder's message), or a parsed JSON value. -/
inductive Line where
  | blank
  | malformed (msg : String)
  | doc (v : J)
  deriving DecidableEq

/-- The structured diagnostic stream written to stderr by the ingest loop and
the closing messages.  (The transport-specific banner printed before the loop
is an I/O adapter concern and not modelled.) -/
inductive Diag where
  | invalidJson (lineNum : Nat) (msg : String)  -- "Skipping invalid JSON on line N: msg"
  | missingKey (lineNum : Nat) (key : String)   -- "Warning: no key 'K' on line N; skipping."
  | progress (n : Nat)                          -- "Processed N lines..."
  | summary (n : Nat)                           -- "Processed N total lines. Exporting merged data..."
  | complete                                    -- get_completion_message(output_path)
  deriving DecidableEq

/-- The loop state: the database, the shared batch buffer, the count of
processed (accepted) lines, and the diagnostics emitted so far. -/
structure RunState where
  db : DB
  batch : List Row
  processed : Nat
  diags : List Diag
  deriving DecidableEq

/-- One iteration of the `for line_num, raw_line in enumerate(...)` loop
(lines 301–321).  `progressInterval` is assumed positive, as its default
10000 and any sensible configuration are (Python raises `ZeroDivisionError`
on `% 0`; `Nat.mod _ 0` never fires the progress branch instead). -/
def stepLine (key : String) (batchSize progressInterval : Nat) (st : RunState)
    (lineNum : Nat) (l : Line) : Except PyErr RunState :=
  match l with
  | .blank => .ok st
  | .malformed msg => .ok { st with diags := st.diags ++ [.invalidJson lineNum msg] }
  | .doc v => do
      let contains ← pyContains v key
      if !contains then
        return { st with diags := st.diags ++ [.missingKey lineNum key] }
      let (db, batch) ← process_document st.db v key st.batch batchSize
      let processed := st.processed + 1
      let diags :=
        if processed % progressInterval == 0 then st.diags ++ [.progress processed]
        else st.diags
      return ⟨db, batch, processed, diags⟩

/-- The ingest loop over the remaining lines, numbering from `n`. -/
def runLines (key : String) (batchSize progressInterval : Nat) :
    RunState → Nat → List Line → Except PyErr RunState
  | st, _, [] => .ok st
  | st, n, l :: rest => do
      let st2 ← stepLine key batchSize progressInterval st n l
      runLines key batchSize progressInterval st2 (n + 1) rest

/-! ## `deserialize_value`

`deserialize_value(s)` is `json.loads(s)`.  In this system it is only ever
applied to strings the system itself wrote with `serialize_value` (the
`key_value` and `value_data` columns), so it is modelled by a parser for the
compact canonical grammar `dumps` emits; a failure corresponds to the fatal
`CodecError` class of the spec. -/

/-- Value of a lowercase hexadecimal digit. -/
def hexVal (c : Char) : Option Nat :=
  let n := c.toNat
  if 48 ≤ n ∧ n ≤ 57 then some (n - 48)
  else if 97 ≤ n ∧ n ≤ 102 then some (n - 87)
  else none

/-- Value of four hexadecimal digits, most significant first. -/
def hexVal4 (h1 h2 h3 h4 : Char) : Option Nat := do
  let a ← hexVal h1
  let b ← hexVal h2
  let c ← hexVal h3
  let d ← hexVal h4
  return a * 4096 + b * 256 + c * 16 + d

/-- Is `c` a decimal digit? -/
def isDigitB (c : Char) : Bool := 48 ≤ c.toNat && c.toNat ≤ 57

/-- Longest prefix of decimal digits. -/
def takeDigits : List Char → List Char × List Char
  | [] => ([], [])
  | c :: cs =>
      if isDigitB c then
        let p := takeDigits cs
        (c :: p.1, p.2)
      else ([], c :: cs)

/-- Numeric value of a digit string. -/
def digitsVal (ds : List Char) : Nat :=
  ds.foldl (fun acc c => 10 * acc + (c.toNat - 48)) 0

mutual
/-- Parse the body of a JSON string literal (after the opening quote) up to
and including the closing quote, decoding the escapes `dumps` can emit,
surrogate pairs included. -/
def parseStrBody : List Char → Option (List Char × List Char)
  | [] => none
  | c :: rest =>
      if c = '"' then some ([], rest)
      else if c = '\\' then parseEscape rest
      else (parseStrBody rest).map fun p => (c :: p.1, p.2)

/-- Decode one escape sequence (after the backslash) and continue. -/
def parseEscape : List Char → Option (List Char × List Char)
  | [] => none
  | e :: rest =>
      if e = '"' then (parseStrBody rest).map fun p => ('"' :: p.1, p.2)
      else if e = '\\' then (parseStrBody rest).map fun p => ('\\' :: p.1, p.2)
      else if e = 'b' then (parseStrBody rest).map fun p => ('\x08' :: p.1, p.2)
      else if e = 'f' then (parseStrBody rest).map fun p => ('\x0c' :: p.1, p.2)
      else if e = 'n' then (parseStrBody rest).map fun p => ('\n' :: p.1, p.2)
      else if e = 'r' then (parseStrBody rest).map fun p => ('\r' :: p.1, p.2)
      else if e = 't' then (parseStrBody rest).map fun p => ('\t' :: p.1, p.2)
      else if e = 'u' then parseU rest
      else none

/-- Decode a `\uXXXX` escape: four hex digits, then either a BMP character
or, for a high surrogate, the low-surrogate continuation. -/
def parseU : List Char → Option (List Char × List Char)
  | h1 :: h2 :: h3 :: h4 :: r =>
      match hexVal4 h1 h2 h3 h4 with
      | none => none
      | some n =>
          if n < 55296 ∨ 57344 ≤ n then
            (parseStrBody r).map fun p => (Char.ofNat n :: p.1, p.2)
          else if n < 56320 then parseULow n r
          else none
  | _ => none

/-- Decode the `\uXXXX` low-surrogate continuation after a high surrogate
with value `n`. -/
def parseULow (n : Nat) : List Char → Option (List Char × List Char)
  | b1 :: u1 :: g1 :: g2 :: g3 :: g4 :: r2 =>
      if b1 = '\\' ∧ u1 = 'u' then
        match hexVal4 g1 g2 g3 g4 with
        | none => none
        | some nn =>
            if 56320 ≤ nn ∧ nn < 57344 then
              (parseStrBody r2).map fun p =>
                (Char.ofNat (65536 + (n - 55296) * 1024 + (nn - 56320)) :: p.1, p.2)
            else none
      else none
  | _ => none
end

/-- Parse a quoted object key followed by `:`. -/
def parseKey : List Char → Option (String × List Char)
  | [] => none
  | c :: rest =>
      if c = '"' then
        match parseStrBody rest with
        | some (l, d :: r) => if d = ':' then some (⟨l⟩, r) else none
        | _ => none
      else none

mutual
/-- Parse one JSON value of the compact canonical grammar.  The fuel bounds
the recursion depth; the fuel `deserialize_value` passes always suffices. -/
def parseVal : Nat → List Char → Option (J × List Char)
  | 0, _ => none
  | fuel + 1, cs =>
      match cs with
      | [] => none
      | c :: rest =>
          if c = 'n' then
            match rest with
            | 'u' :: 'l' :: 'l' :: r => some (.null, r)
            | _ => none
          else if c = 't' then
            match rest with
            | 'r' :: 'u' :: 'e' :: r => some (.bool true, r)
            | _ => none
          else if c = 'f' then
            match rest with
            | 'a' :: 'l' :: 's' :: 'e' :: r => some (.bool false, r)
            | _ => none
          else if c = '"' then (parseStrBody rest).map fun p => (.str ⟨p.1⟩, p.2)
          else if c = '[' then
            match rest with
            | [] => none
            | d :: rest2 =>
                if d = ']' then some (.arr [], rest2)
                else do
                  let (x, r) ← parseVal fuel (d :: rest2)
                  let (xs, r2) ← parseArrTail fuel r
                  return (.arr (x :: xs), r2)
          else if c = '{' then
            match rest with
            | [] => none
            | d :: rest2 =>
                if d = '}' then some (.obj [], rest2)
                else do
                  let (k, r0) ← parseKey (d :: rest2)
                  let (v, r1) ← parseVal fuel r0
                  let (kvs, r2) ← parseObjTail fuel r1
                  return (.obj ((k, v) :: kvs), r2)
          else if c = '-' then
            match takeDigits rest with
            | ([], _) => none
            | (ds, r) => some (.num (-(digitsVal ds : Int)), r)
          else if isDigitB c then
            match takeDigits (c :: rest) with
            | (ds, r) => some (.num ((digitsVal ds : Int)), r)
          else none

/-- Parse the rest of an array after one element: `]`, or `,` and more. -/
def parseArrTail : Nat → List Char → Option (List J × List Char)
  | 0, _ => none
  | fuel + 1, cs =>
      match cs with
      | [] => none
      | c :: rest =>
          if c = ']' then some ([], rest)
          else if c = ',' then do
            let (x, r) ← parseVal fuel rest
            let (xs, r2) ← parseArrTail fuel r
            return (x :: xs, r2)
          else none

/-- Parse the rest of an object after one entry: `}`, or `,` and more. -/
def parseObjTail : Nat → List Char → Option (List (String × J) × List Char)
  | 0, _ => none
  | fuel + 1, cs =>
      match cs with
      | [] => none
      | c :: rest =>
          if c = '}' then some ([], rest)
          else if c = ',' then do
            let (k, r0) ← parseKey rest
            let (v, r1) ← parseVal fuel r0
            let (kvs, r2) ← parseObjTail fuel r1
            return ((k, v) :: kvs, r2)
          else none
end

/-- `deserialize_value(s)`: parse the full string, requiring all input to be
consumed, with fuel that always suffices for strings `serialize_value`
produced. -/
def deserialize_value (s : String) : Option J :=
  match parseVal (s.length + 1) s.data with
  | some (v, []) => some v
  | _ => none

example : deserialize_value "\x7b\"a\":1,\"b\":[true,null,\"x\"]\x7d" =
    some (.obj [("a", .num 1), ("b", .arr [.bool true, .null, .str "x"])]) := by decide

example : deserialize_value "\"\\ud83d\\ude00\"" = some (.str "😀") := by decide

example : deserialize_value "-12" = some (.num (-12)) := by decide

example : deserialize_value (serialize_value (.obj [("b", .num 2), ("a", .num 1)])) =
    some (.obj [("a", .num 1), ("b", .num 2)]) := by decide

/-! ## The export pass: `export_merged_data` -/

/-- Python dict assignment `doc[f] = v` on an insertion-ordered mapping. -/
def assignField (doc : List (String × J)) (f : String) (v : J) : List (String × J) :=
  if doc.any (·.1 == f) then doc.map fun p => if p.1 == f then (f, v) else p
  else doc ++ [(f, v)]

/-- `ORDER BY merge_key` comparison on `merge_keys` rows. -/
def keyRowLe (p q : String × String) : Prop := strLe p.1 q.1 = true

instance : DecidableRel keyRowLe :=
  fun p q => decidable_of_iff (strLe p.1 q.1 = true) Iff.rfl

instance : IsTotal (String × String) keyRowLe := ⟨fun p q => strLe_total p.1 q.1⟩

instance : IsTrans (String × String) keyRowLe := ⟨fun _ _ _ => strLe_trans⟩

/-- `ORDER BY field_name, value_data` comparison on `field_values` rows. -/
def rowLe (r s : Row) : Prop :=
  (if r.fieldName = s.fieldName then strLe r.valueData s.valueData
   else strLe r.fieldName s.fieldName) = true

instance : DecidableRel rowLe :=
  fun r s =>
    decidable_of_iff ((if r.fieldName = s.fieldName then strLe r.valueData s.valueData
      else strLe r.fieldName s.fieldName) = true) Iff.rfl

instance : IsTotal Row rowLe :=
  ⟨by
    intro r s
    unfold rowLe
    by_cases h : r.fieldName = s.fieldName
    · simp [h]
      exact strLe_total _ _
    · simp [h, Ne.symm h]
      exact strLe_total _ _⟩

instance : IsTrans Row rowLe :=
  ⟨by
    intro r s t h₁ h₂
    unfold rowLe at h₁ h₂ ⊢
    by_cases hrs : r.fieldName = s.fieldName <;> by_cases hst : s.fieldName = t.fieldName
    · simp_all
      exact strLe_trans h₁ h₂
    · simp_all
    · simp_all
    · by_cases hrt : r.fieldName = t.fieldName
      · simp_all
        exact absurd (strLe_antisymm h₁ h₂) (hrt ▸ hrs)
      · simp_all
        exact strLe_trans h₁ h₂⟩

/-- The first query of the export pass:
`SELECT merge_key, key_value FROM merge_keys ORDER BY merge_key`. -/
def selectMergeKeysSorted (db : DB) : List (String × String) :=
  List.insertionSort keyRowLe db.mergeKeys

/-- The per-key query: `SELECT field_name, value_data FROM field_values
WHERE merge_key = ? ORDER BY field_name, value_data`. -/
def selectFieldRows (db : DB) (k : String) : List Row :=
  List.insertionSort rowLe (db.fieldValues.filter (·.mergeKey == k))

/-- Saving the field being accumulated into the document: a single value is
assigned bare, several are assigned as the list (lines 158–163 and 171–176). -/
def flushField (doc : List (String × J)) (cur : Option String) (vals : List J) :
    List (String × J) :=
  match cur with
  | none => doc
  | some f =>
      match vals with
      | [v] => assignField doc f v
      | _ => assignField doc f (.arr vals)

/-- The grouping loop over the sorted rows of one merge key
(lines 153–176), carrying `current_field` and `field_values`. -/
def groupRows : List Row → List (String × J) → Option String → List J →
    Option (List (String × J))
  | [], doc, cur, vals => some (flushField doc cur vals)
  | r :: rest, doc, cur, vals => do
      let v ← deserialize_value r.valueData
      if cur = some r.fieldName then
        groupRows rest doc cur (vals ++ [v])
      else
        groupRows rest (flushField doc cur vals) (some r.fieldName) [v]

/-- Option-valued `mapM` over a list (kept concrete for kernel evaluation). -/
def mapOpt (f : α → Option β) : List α → Option (List β)
  | [] => some []
  | x :: xs => do
      let y ← f x
      let ys ← mapOpt f xs
      return y :: ys

/-- `export_merged_data(conn, output_file, merge_key_field)`: one output line
per merge key in ascending encoded-key order; each line is the compact JSON
dump of the reconstructed document (merge-key field first, then the grouped
fields).  `none` models a `json.loads` failure on system-written data (the
fatal `CodecError` class), which never occurs on reachable states. -/
def export_merged_data (db : DB) (mergeKeyField : String) : Option (List String) :=
  mapOpt
    (fun kv => do
      let keyVal ← deserialize_value kv.2
      let doc ← groupRows (selectFieldRows db kv.1) [(mergeKeyField, keyVal)] none []
      return String.mk (dumps (.obj doc)))
    (selectMergeKeysSorted db)

/-! ## The whole pipeline: `stream_merge_jsonl_optimized`

Transport concerns (stdin/S3 adapters, the temporary-file path, KMS) are the
out-of-scope I/O layer; the core consumes a list of stripped/parsed lines and
produces the list of output lines plus the diagnostic stream. -/

/-- `stream_merge_jsonl_optimized`: ingest every line, flush the remaining
batch, emit the closing summary, and run the export pass.  An uncaught
per-line exception aborts the whole run (`except Exception` → `sys.exit(1)`),
modelled as `Except.error`. -/
def stream_merge_jsonl_optimized (input : List Line) (mergeKeyField : String)
    (batchSize : Nat := 1000) (progressInterval : Nat := 10000) :
    Except PyErr (List String × List Diag) := do
  let st0 : RunState := ⟨open_sqlite, [], 0, []⟩
  let st ← runLines mergeKeyField batchSize progressInterval st0 1 input
  let db := insert_field_values_batch st.db st.batch
  let diags := st.diags ++ [.summary st.processed]
  match export_merged_data db mergeKeyField with
  | none => .error .codecFailure
  | some out => .ok (out, diags ++ [.complete])

/-! ## Claim theorems: concrete end-to-end scenarios -/

set_option maxRecDepth 1000000 in
/-- C1: running the full pipeline with `mergeKeyField="id"` on the three-line
input `{"id":"A","name":"Alice","role":"admin"}`,
`{"id":"A","name":"Alice","role":"editor"}`, `{"id":"B","name":"Bob"}`
produces exactly two output lines, in ascending merge-key order:
`{"id":"A","name":"Alice","role":["admin","editor"]}` then
`{"id":"B","name":"Bob"}`. -/
theorem claim_C1_end_to_end :
    stream_merge_jsonl_optimized
      [.doc (.obj [("id", .str "A"), ("name", .str "Alice"), ("role", .str "admin")]),
       .doc (.obj [("id", .str "A"), ("name", .str "Alice"), ("role", .str "editor")]),
       .doc (.obj [("id", .str "B"), ("name", .str "Bob")])]
      "id" 1000 10000 =
    .ok (["\x7b\"id\":\"A\",\"name\":\"Alice\",\"role\":[\"admin\",\"editor\"]\x7d",
          "\x7b\"id\":\"B\",\"name\":\"Bob\"\x7d"],
         [.summary 3, .complete]) := rfl

set_option maxRecDepth 1000000 in
/-- C4: an array-valued field is flattened one level on ingestion — each
element becomes its own batch row, never the array as one composite value —
and ingesting `{"id":"k1","tags":["a","b"]}` then `{"id":"k1","tags":["b","c"]}`
exports `tags` as `["a","b","c"]` (deduplicated, not `[["a","b"],["b","c"]]`). -/
theorem claim_C4_array_flattening :
    (∀ mergeKeyStr fieldName : String, ∀ xs : List J,
        rowsOfField mergeKeyStr fieldName (.arr xs) =
          xs.map fun item =>
            Row.mk mergeKeyStr fieldName (hash_value item) (serialize_value item)) ∧
    stream_merge_jsonl_optimized
      [.doc (.obj [("id", .str "k1"), ("tags", .arr [.str "a", .str "b"])]),
       .doc (.obj [("id", .str "k1"), ("tags", .arr [.str "b", .str "c"])])]
      "id" 1000 10000 =
    .ok (["\x7b\"id\":\"k1\",\"tags\":[\"a\",\"b\",\"c\"]\x7d"], [.summary 2, .complete]) :=
  ⟨fun _ _ _ => rfl, rfl⟩

set_option maxRecDepth 1000000 in
/-- C7 (code bug): a line that is valid JSON but not an object at top level is
NOT skipped as a local parse-semantic error.  For a top-level number the
membership test `merge_key_field not in doc` raises `TypeError`, which escapes
the `json.JSONDecodeError` handler, reaches the catch-all `except Exception`
and terminates the whole run with `sys.exit(1)`: later lines are never
processed and nothing is exported. -/
theorem claim_C7_nonobject_line_is_fatal :
    stream_merge_jsonl_optimized
      [.doc (.num 5),
       .doc (.obj [("id", .str "A"), ("name", .str "Alice")])]
      "id" 1000 10000 =
    .error (.notIterable "int") := rfl

/-! ## The Field Store contract (`put` / `valuesFor`)

The spec's `put(mergeKey, field, value)` is, in the source, appending the row
`(merge_key, field_name, hash_value(value), serialize_value(value))` and
(eventually) flushing it through `INSERT OR IGNORE`; `valuesFor` is the
export-side fetch: filter the rows of the pair, sort by the canonical
encoding, decode. -/

/-- `put`: insert one field value for a merge key (one-row batch flush). -/
def put (db : DB) (mergeKey field : String) (v : J) : DB :=
  insert_field_values_batch db [Row.mk mergeKey field (hash_value v) (serialize_value v)]

/-- `valuesFor`: the distinct values stored for `(mergeKey, field)`, in
canonical-encoding sort order, decoded as the export pass decodes them. -/
def valuesFor (db : DB) (mergeKey field : String) : List J :=
  ((selectFieldRows db mergeKey).filter (·.fieldName == field)).map
    fun r => (deserialize_value r.valueData).getD .null

theorem samePK_refl (r : Row) : samePK r r = true := by
  simp [samePK]

theorem insertRowIgnore_idem (t : List Row) (r : Row) :
    insertRowIgnore (insertRowIgnore t r) r = insertRowIgnore t r := by
  unfold insertRowIgnore
  by_cases h : t.any (samePK · r)
  · simp [h]
  · simp [h, samePK_refl]

theorem put_put (db : DB) (k f : String) (v : J) :
    put (put db k f v) k f v = put db k f v := by
  unfold put insert_field_values_batch
  simp [insertRowIgnore_idem]

theorem mem_insertRowIgnore {t : List Row} {s : Row} (r : Row) (h : s ∈ t) :
    s ∈ insertRowIgnore t r := by
  unfold insertRowIgnore
  by_cases hc : t.any (samePK · r) <;> simp [hc, h]

/-- C2: the Field Store is idempotent and append-only: putting the same value
twice yields the same `valuesFor` as putting it once, and no `put` ever
removes a previously inserted value from any value set. -/
theorem claim_C2_store_idempotent_monotonic :
    (∀ (db : DB) (k f : String) (v : J),
        valuesFor (put (put db k f v) k f v) k f = valuesFor (put db k f v) k f) ∧
    (∀ (db : DB) (k f k₂ f₂ : String) (v w : J),
        v ∈ valuesFor db k f → v ∈ valuesFor (put db k₂ f₂ w) k f) := by
  constructor
  · intro db k f v
    rw [put_put]
  · intro db k f k₂ f₂ v w hv
    unfold valuesFor selectFieldRows at hv ⊢
    simp only [List.mem_map, List.mem_filter, List.mem_insertionSort] at hv ⊢
    obtain ⟨r, ⟨⟨hrt, hrk⟩, hrf⟩, hdec⟩ := hv
    refine ⟨r, ⟨⟨?_, hrk⟩, hrf⟩, hdec⟩
    unfold put insert_field_values_batch
    simpa using mem_insertRowIgnore _ hrt

set_option maxRecDepth 1000000 in
/-- Witness for C2 at concrete inputs: the store built by two identical puts
of `"x"` equals the one-put store on `valuesFor`, and the value `"x"` put
earlier survives a later unrelated put. -/
theorem claim_C2_store_idempotent_monotonic_witness :
    (valuesFor (put (put open_sqlite "\"k\"" "f" (.str "x")) "\"k\"" "f" (.str "x"))
        "\"k\"" "f" =
      valuesFor (put open_sqlite "\"k\"" "f" (.str "x")) "\"k\"" "f") ∧
    J.str "x" ∈ valuesFor
      (put (put open_sqlite "\"k\"" "f" (.str "x")) "\"k2\"" "g" (.num 1)) "\"k\"" "f" :=
  ⟨claim_C2_store_idempotent_monotonic.1 open_sqlite "\"k\"" "f" (.str "x"),
   claim_C2_store_idempotent_monotonic.2
     (put open_sqlite "\"k\"" "f" (.str "x")) "\"k\"" "f" "\"k2\"" "g"
     (.str "x") (.num 1) (by decide)⟩

/-! ## Round trip: the parser reads back exactly what `dumps` wrote -/

theorem isValidChar_of_range {n : Nat} (h : n < 55296 ∨ (57344 ≤ n ∧ n < 1114112)) :
    n.isValidChar := by
  unfold Nat.isValidChar
  exact h

theorem toNat_ofNat_valid {n : Nat} (h : n.isValidChar) : (Char.ofNat n).toNat = n := by
  unfold Char.ofNat
  simp [h]
  rfl

theorem char_toNat_valid (c : Char) :
    c.toNat < 55296 ∨ (57344 ≤ c.toNat ∧ c.toNat < 1114112) := by
  have h := c.valid
  unfold UInt32.isValidChar Nat.isValidChar at h
  exact h

theorem char_ne_of_toNat_ne {a b : Char} (h : a.toNat ≠ b.toNat) : a ≠ b :=
  fun he => h (he ▸ rfl)

theorem digitChar_toNat {d : Nat} (h : d < 10) : (digitChar d).toNat = 48 + d := by
  unfold digitChar
  exact toNat_ofNat_valid (isValidChar_of_range (.inl (by omega)))

theorem isDigitB_digitChar {d : Nat} (h : d < 10) : isDigitB (digitChar d) = true := by
  simp [isDigitB, digitChar_toNat h]
  omega

theorem natDigits_fuel : ∀ {n f g : Nat}, n < f → n < g → natDigits f n = natDigits g n := by
  intro n
  induction n using Nat.strong_induction_on with
  | _ n IH =>
    intro f g hf hg
    cases f with
    | zero => omega
    | succ f =>
      cases g with
      | zero => omega
      | succ g =>
        unfold natDigits
        by_cases h10 : n < 10
        · simp [h10]
        · simp [h10]
          exact IH (n / 10) (by omega) (by omega) (by omega)

theorem natRepr_digits {n : Nat} : ∀ c ∈ natRepr n, isDigitB c = true := by
  induction n using Nat.strong_induction_on with
  | _ n IH =>
    unfold natRepr natDigits
    by_cases h10 : n < 10
    · simp [h10]
      exact isDigitB_digitChar h10
    · simp [h10]
      intro c hc
      rcases hc with h | h
      · rw [natDigits_fuel (by omega) (Nat.lt_succ_self _)] at h
        exact IH (n / 10) (by omega) c h
      · subst h
        exact isDigitB_digitChar (by omega)

theorem natRepr_ne_nil (n : Nat) : natRepr n ≠ [] := by
  unfold natRepr natDigits
  by_cases h10 : n < 10 <;> simp [h10]

theorem digitsVal_append_digit (ds : List Char) (d : Char) :
    digitsVal (ds ++ [d]) = 10 * digitsVal ds + (d.toNat - 48) := by
  unfold digitsVal
  rw [List.foldl_append]
  rfl

theorem digitsVal_natRepr (n : Nat) : digitsVal (natRepr n) = n := by
  induction n using Nat.strong_induction_on with
  | _ n IH =>
    unfold natRepr natDigits
    by_cases h10 : n < 10
    · simp [h10]
      simp [digitsVal, digitChar_toNat h10]
    · simp [h10]
      rw [natDigits_fuel (by omega) (Nat.lt_succ_self _), digitsVal_append_digit]
      rw [show natDigits ((n / 10) + 1) (n / 10) = natRepr (n / 10) from rfl]
      rw [IH (n / 10) (by omega), digitChar_toNat (by omega)]
      omega

/-- Does the input start with a decimal digit? -/
def headDigit : List Char → Bool
  | [] => false
  | c :: _ => isDigitB c

theorem takeDigits_all : ∀ {ds r : List Char}, (∀ c ∈ ds, isDigitB c = true) →
    headDigit r = false → takeDigits (ds ++ r) = (ds, r) := by
  intro ds
  induction ds with
  | nil =>
      intro r _ hr
      cases r with
      | nil => rfl
      | cons c cs =>
          simp only [headDigit] at hr
          unfold takeDigits
          simp [hr]
  | cons c cs IH =>
      intro r hds hr
      unfold takeDigits
      rw [List.cons_append]
      simp only [hds c (by simp)]
      rw [IH (fun x hx => hds x (by simp [hx])) hr]
      simp

theorem hexVal_hexDigitChar {d : Nat} (h : d < 16) : hexVal (hexDigitChar d) = some d := by
  unfold hexVal hexDigitChar
  by_cases h10 : d < 10
  · rw [if_pos h10, toNat_ofNat_valid (isValidChar_of_range (.inl (by omega)))]
    simp only
    rw [if_pos (by omega)]
    simp
  · rw [if_neg h10, toNat_ofNat_valid (isValidChar_of_range (.inl (by omega)))]
    simp only
    rw [if_neg (by omega), if_pos (by omega)]
    simp

theorem hexVal4_parts {n : Nat} (h : n < 65536) :
    hexVal4 (hexDigitChar ((n >>> 12) % 16)) (hexDigitChar ((n >>> 8) % 16))
      (hexDigitChar ((n >>> 4) % 16)) (hexDigitChar (n % 16)) = some n := by
  unfold hexVal4
  rw [hexVal_hexDigitChar (by omega), hexVal_hexDigitChar (by omega),
      hexVal_hexDigitChar (by omega), hexVal_hexDigitChar (by omega)]
  simp [Option.bind, Nat.shiftRight_eq_div_pow]
  omega

theorem parseStrBody_quote (r : List Char) : parseStrBody ('"' :: r) = some ([], r) := rfl

theorem parseStrBody_backslash (r : List Char) :
    parseStrBody ('\\' :: r) = parseEscape r := rfl

theorem parseStrBody_other {c : Char} (h1 : c ≠ '"') (h2 : c ≠ '\\') (r : List Char) :
    parseStrBody (c :: r) = (parseStrBody r).map fun p => (c :: p.1, p.2) := by
  simp only [parseStrBody]
  rw [if_neg h1, if_neg h2]

theorem parseEscape_u_bmp {h1 h2 h3 h4 : Char} {n : Nat} (m : List Char)
    (hhex : hexVal4 h1 h2 h3 h4 = some n) (hn : n < 55296 ∨ 57344 ≤ n) :
    parseEscape ('u' :: h1 :: h2 :: h3 :: h4 :: m) =
      (parseStrBody m).map fun p => (Char.ofNat n :: p.1, p.2) := by
  have hu : parseEscape ('u' :: h1 :: h2 :: h3 :: h4 :: m) =
      parseU (h1 :: h2 :: h3 :: h4 :: m) := rfl
  rw [hu]
  simp only [parseU, hhex]
  rw [if_pos hn]

theorem parseEscape_u_pair {h1 h2 h3 h4 g1 g2 g3 g4 : Char} {n nn : Nat} (m : List Char)
    (hhex1 : hexVal4 h1 h2 h3 h4 = some n) (hn1 : 55296 ≤ n) (hn2 : n < 56320)
    (hhex2 : hexVal4 g1 g2 g3 g4 = some nn) (hm1 : 56320 ≤ nn) (hm2 : nn < 57344) :
    parseEscape ('u' :: h1 :: h2 :: h3 :: h4 :: '\\' :: 'u' :: g1 :: g2 :: g3 :: g4 :: m) =
      (parseStrBody m).map fun p =>
        (Char.ofNat (65536 + (n - 55296) * 1024 + (nn - 56320)) :: p.1, p.2) := by
  have hu : parseEscape ('u' :: h1 :: h2 :: h3 :: h4 :: '\\' :: 'u' :: g1 :: g2 :: g3 :: g4 :: m) =
      parseU (h1 :: h2 :: h3 :: h4 :: '\\' :: 'u' :: g1 :: g2 :: g3 :: g4 :: m) := rfl
  rw [hu]
  simp only [parseU, hhex1]
  rw [if_neg (by omega), if_pos (by omega)]
  simp only [parseULow, hhex2]
  rw [if_pos (by trivial), if_pos ⟨hm1, hm2⟩]

theorem parseStrBody_escapeChar (c : Char) (m : List Char) :
    parseStrBody (escapeChar c ++ m) = (parseStrBody m).map fun p => (c :: p.1, p.2) := by
  by_cases h34 : c.toNat = 34
  · have hc : c = '"' := charEq_of_toNat (by rw [h34]; rfl)
    subst hc
    rfl
  by_cases h92 : c.toNat = 92
  · have hc : c = '\\' := charEq_of_toNat (by rw [h92]; rfl)
    subst hc
    rfl
  by_cases h8 : c.toNat = 8
  · have hc : c = '\x08' := charEq_of_toNat (by rw [h8]; rfl)
    subst hc
    rfl
  by_cases h12 : c.toNat = 12
  · have hc : c = '\x0c' := charEq_of_toNat (by rw [h12]; rfl)
    subst hc
    rfl
  by_cases h10 : c.toNat = 10
  · have hc : c = '\n' := charEq_of_toNat (by rw [h10]; rfl)
    subst hc
    rfl
  by_cases h13 : c.toNat = 13
  · have hc : c = '\r' := charEq_of_toNat (by rw [h13]; rfl)
    subst hc
    rfl
  by_cases h9 : c.toNat = 9
  · have hc : c = '\t' := charEq_of_toNat (by rw [h9]; rfl)
    subst hc
    rfl
  have hq : c ≠ '"' := fun he => h34 (by subst he; rfl)
  have hb : c ≠ '\\' := fun he => h92 (by subst he; rfl)
  by_cases hplain : 32 ≤ c.toNat ∧ c.toNat ≤ 126
  · simp only [escapeChar]
    rw [if_neg h34, if_neg h92, if_neg h8, if_neg h12, if_neg h10, if_neg h13, if_neg h9,
        if_pos hplain]
    simp only [List.cons_append, List.nil_append]
    rw [parseStrBody_other hq hb]
  by_cases hbmp : c.toNat < 65536
  · have hcond : c.toNat < 55296 ∨ 57344 ≤ c.toNat := by
      rcases char_toNat_valid c with h | h
      · exact .inl h
      · exact .inr h.1
    simp only [escapeChar]
    rw [if_neg h34, if_neg h92, if_neg h8, if_neg h12, if_neg h10, if_neg h13, if_neg h9,
        if_neg hplain, if_pos hbmp]
    simp only [hex4, List.cons_append, List.nil_append]
    rw [parseStrBody_backslash, parseEscape_u_bmp m (hexVal4_parts hbmp) hcond,
        Char.ofNat_toNat]
  · have hhi : 65536 ≤ c.toNat ∧ c.toNat < 1114112 := by
      rcases char_toNat_valid c with h | h
      · omega
      · omega
    simp only [escapeChar]
    rw [if_neg h34, if_neg h92, if_neg h8, if_neg h12, if_neg h10, if_neg h13, if_neg h9,
        if_neg hplain, if_neg hbmp]
    simp only [hex4, List.cons_append, List.nil_append, List.append_assoc]
    rw [parseStrBody_backslash,
        parseEscape_u_pair m (hexVal4_parts (by omega)) (by omega) (by omega)
          (hexVal4_parts (by omega)) (by omega) (by omega)]
    have harith : 65536 + (55296 + (c.toNat - 65536) / 1024 - 55296) * 1024 +
        (56320 + (c.toNat - 65536) % 1024 - 56320) = c.toNat := by omega
    rw [harith, Char.ofNat_toNat]

theorem parseStrBody_flatMap (l : List Char) (r : List Char) :
    parseStrBody (l.flatMap escapeChar ++ '"' :: r) = some (l, r) := by
  induction l with
  | nil => rfl
  | cons c cs IH =>
      rw [List.flatMap_cons, List.append_assoc, parseStrBody_escapeChar, IH]
      rfl

theorem parseKey_dumpStr (k : String) (r : List Char) :
    parseKey (dumpStr k ++ ':' :: r) = some (k, r) := by
  unfold dumpStr parseKey
  simp only [List.cons_append, List.append_assoc, List.singleton_append, List.nil_append]
  rw [if_true, parseStrBody_flatMap]
  simp

/-! ## Round trip for whole values -/

mutual
/-- Fuel bound for parsing `dumps v`. -/
def szV : J → Nat
  | .null => 1
  | .bool _ => 1
  | .num _ => 1
  | .str _ => 1
  | .arr xs => 1 + szL xs
  | .obj kvs => 1 + szO kvs

/-- Fuel bound for parsing an array tail. -/
def szL : List J → Nat
  | [] => 1
  | x :: xs => szV x + szL xs

/-- Fuel bound for parsing an object tail. -/
def szO : List (String × J) → Nat
  | [] => 1
  | (_, v) :: kvs => szV v + szO kvs
end

/-- The characters of an array literal after the first element. -/
def arrTailChars : List J → List Char
  | [] => [']']
  | y :: ys => ',' :: dumps y ++ arrTailChars ys

/-- The characters of an object literal after the first entry. -/
def objTailChars : List (String × J) → List Char
  | [] => ['}']
  | (k, v) :: kvs => ',' :: (dumpStr k ++ ':' :: dumps v) ++ objTailChars kvs

theorem dumpsList_decomp : ∀ (x : J) (xs : List J) (r : List Char),
    dumpsList (x :: xs) ++ ']' :: r = dumps x ++ (arrTailChars xs ++ r)
  | x, [], r => by simp [dumpsList, arrTailChars]
  | x, y :: ys, r => by
      simp only [dumpsList, arrTailChars]
      rw [List.append_assoc, List.cons_append]
      rw [dumpsList_decomp y ys r]
      simp

theorem dumpsObj_decomp : ∀ (k : String) (v : J) (kvs : List (String × J)) (r : List Char),
    dumpsObj ((k, v) :: kvs) ++ '}' :: r =
      dumpStr k ++ ':' :: dumps v ++ (objTailChars kvs ++ r)
  | k, v, [], r => by simp [dumpsObj, objTailChars]
  | k, v, (l, w) :: kvs, r => by
      simp only [dumpsObj, objTailChars]
      rw [List.append_assoc, List.cons_append]
      rw [dumpsObj_decomp l w kvs r]
      simp

theorem isDigitB_iff {c : Char} : isDigitB c = true ↔ 48 ≤ c.toNat ∧ c.toNat ≤ 57 := by
  simp [isDigitB]

theorem dumps_head (v : J) : ∃ c cs, dumps v = c :: cs ∧ c ≠ ']' := by
  cases v with
  | null => exact ⟨'n', _, rfl, by decide⟩
  | bool b =>
      cases b with
      | false => exact ⟨'f', _, rfl, by decide⟩
      | true => exact ⟨'t', _, rfl, by decide⟩
  | num n =>
      show ∃ c cs, intRepr n = c :: cs ∧ c ≠ ']'
      unfold intRepr
      by_cases hn : n < 0
      · rw [if_pos hn]
        exact ⟨'-', _, rfl, by decide⟩
      · rw [if_neg hn]
        obtain ⟨c, cs, h⟩ := List.exists_cons_of_ne_nil (natRepr_ne_nil n.toNat)
        refine ⟨c, cs, h, ?_⟩
        have hd := @natRepr_digits n.toNat c (by rw [h]; exact List.mem_cons_self c cs)
        intro he
        subst he
        exact absurd hd (by decide)
  | str s => exact ⟨'"', _, rfl, by decide⟩
  | arr xs => exact ⟨'[', _, rfl, by decide⟩
  | obj kvs => exact ⟨'{', _, rfl, by decide⟩

theorem headDigit_arrTail (xs : List J) (r : List Char) :
    headDigit (arrTailChars xs ++ r) = false := by
  cases xs <;> rfl

theorem headDigit_objTail (kvs : List (String × J)) (r : List Char) :
    headDigit (objTailChars kvs ++ r) = false := by
  cases kvs with
  | nil => rfl
  | cons kv kvs => obtain ⟨k, v⟩ := kv; rfl

theorem parseVal_natRepr {f : Nat} (hf : 1 ≤ f) (n : Nat) (r : List Char)
    (hr : headDigit r = false) :
    parseVal f (natRepr n ++ r) = some (.num (n : Int), r) := by
  obtain ⟨g, rfl⟩ : ∃ g, f = g + 1 := ⟨f - 1, by omega⟩
  obtain ⟨c, cs, h⟩ := List.exists_cons_of_ne_nil (natRepr_ne_nil n)
  have hd := @natRepr_digits n c (by rw [h]; exact List.mem_cons_self c cs)
  have hrange := isDigitB_iff.mp hd
  rw [h, List.cons_append]
  simp only [parseVal]
  rw [if_neg (char_ne_of_toNat_ne (by rw [show ('n').toNat = 110 from rfl]; omega)),
      if_neg (char_ne_of_toNat_ne (by rw [show ('t').toNat = 116 from rfl]; omega)),
      if_neg (char_ne_of_toNat_ne (by rw [show ('f').toNat = 102 from rfl]; omega)),
      if_neg (char_ne_of_toNat_ne (by rw [show ('"').toNat = 34 from rfl]; omega)),
      if_neg (char_ne_of_toNat_ne (by rw [show ('[').toNat = 91 from rfl]; omega)),
      if_neg (char_ne_of_toNat_ne (by rw [show ('{').toNat = 123 from rfl]; omega)),
      if_neg (char_ne_of_toNat_ne (by rw [show ('-').toNat = 45 from rfl]; omega)),
      if_pos hd]
  rw [← List.cons_append, ← h, takeDigits_all natRepr_digits hr]
  simp [digitsVal_natRepr]

theorem szV_pos (v : J) : 1 ≤ szV v := by
  cases v <;> simp [szV]

theorem szL_pos (xs : List J) : 1 ≤ szL xs := by
  cases xs with
  | nil => simp [szL]
  | cons x xs => simp [szL]; have := szV_pos x; omega

theorem szO_pos (kvs : List (String × J)) : 1 ≤ szO kvs := by
  cases kvs with
  | nil => simp [szO]
  | cons kv kvs => obtain ⟨k, v⟩ := kv; simp [szO]; have := szV_pos v; omega

theorem parseVal_negRepr {f : Nat} (hf : 1 ≤ f) (m : Nat) (r : List Char)
    (hr : headDigit r = false) :
    parseVal f ('-' :: (natRepr m ++ r)) = some (.num (-(m : Int)), r) := by
  obtain ⟨g, rfl⟩ : ∃ g, f = g + 1 := ⟨f - 1, by omega⟩
  simp only [parseVal]
  rw [if_pos trivial]
  rw [takeDigits_all natRepr_digits hr]
  obtain ⟨c, cs, h⟩ := List.exists_cons_of_ne_nil (natRepr_ne_nil m)
  rw [h]
  show some (J.num (-(digitsVal (c :: cs) : Int)), r) = some (J.num (-(m : Int)), r)
  rw [← h, digitsVal_natRepr]

mutual
theorem parseVal_dumps : ∀ (v : J) (f : Nat) (r : List Char), szV v ≤ f →
    headDigit r = false → parseVal f (dumps v ++ r) = some (v, r)
  | .null, f, r, hf, _ => by
      have hf1 : 1 ≤ f := le_trans (szV_pos _) hf
      obtain ⟨g, rfl⟩ : ∃ g, f = g + 1 := ⟨f - 1, by omega⟩
      rfl
  | .bool true, f, r, hf, _ => by
      have hf1 : 1 ≤ f := le_trans (szV_pos _) hf
      obtain ⟨g, rfl⟩ : ∃ g, f = g + 1 := ⟨f - 1, by omega⟩
      rfl
  | .bool false, f, r, hf, _ => by
      have hf1 : 1 ≤ f := le_trans (szV_pos _) hf
      obtain ⟨g, rfl⟩ : ∃ g, f = g + 1 := ⟨f - 1, by omega⟩
      rfl
  | .num n, f, r, hf, hr => by
      have hf1 : 1 ≤ f := le_trans (szV_pos _) hf
      show parseVal f (intRepr n ++ r) = _
      unfold intRepr
      by_cases hn : n < 0
      · rw [if_pos hn, List.cons_append, parseVal_negRepr hf1 n.natAbs r hr]
        have hv : -((n.natAbs : Nat) : Int) = n := by omega
        rw [hv]
      · rw [if_neg hn, parseVal_natRepr hf1 n.toNat r hr]
        have hv : ((n.toNat : Nat) : Int) = n := Int.toNat_of_nonneg (by omega)
        rw [hv]
  | .str s, f, r, hf, _ => by
      have hf1 : 1 ≤ f := le_trans (szV_pos _) hf
      obtain ⟨g, rfl⟩ : ∃ g, f = g + 1 := ⟨f - 1, by omega⟩
      show parseVal (g + 1) (dumpStr s ++ r) = _
      unfold dumpStr
      simp only [List.cons_append, List.append_assoc, List.singleton_append, List.nil_append]
      simp only [parseVal]
      rw [if_pos trivial, parseStrBody_flatMap]
      rfl
  | .arr [], f, r, hf, _ => by
      have hf1 : 1 ≤ f := le_trans (szV_pos _) hf
      obtain ⟨g, rfl⟩ : ∃ g, f = g + 1 := ⟨f - 1, by omega⟩
      rfl
  | .arr (x :: xs), f, r, hf, hr => by
      have hf1 : 1 ≤ f := le_trans (szV_pos _) hf
      obtain ⟨g, rfl⟩ : ∃ g, f = g + 1 := ⟨f - 1, by omega⟩
      show parseVal (g + 1) (('[' :: dumpsList (x :: xs) ++ [']']) ++ r) = _
      have hsz : szV x + szL xs ≤ g := by
        simp only [szV, szL] at hf
        omega
      have hx1 : szV x ≤ g := by have := szL_pos xs; omega
      have hx2 : szL xs ≤ g := by have := szV_pos x; omega
      have hd : ('[' :: dumpsList (x :: xs) ++ [']']) ++ r =
          '[' :: (dumpsList (x :: xs) ++ ']' :: r) := by simp
      rw [hd, dumpsList_decomp]
      obtain ⟨c1, cs1, hx, hne⟩ := dumps_head x
      rw [hx, List.cons_append]
      simp only [parseVal]
      rw [if_pos trivial, if_neg hne]
      rw [show (c1 :: (cs1 ++ (arrTailChars xs ++ r)) : List Char) =
            dumps x ++ (arrTailChars xs ++ r) from by rw [hx]; simp]
      rw [parseVal_dumps x g (arrTailChars xs ++ r) hx1 (headDigit_arrTail xs r)]
      simp only [Option.bind_eq_bind, Option.some_bind]
      rw [parseArrTail_dumps xs g r hx2 hr]
      rfl
  | .obj [], f, r, hf, _ => by
      have hf1 : 1 ≤ f := le_trans (szV_pos _) hf
      obtain ⟨g, rfl⟩ : ∃ g, f = g + 1 := ⟨f - 1, by omega⟩
      rfl
  | .obj ((k, v) :: kvs), f, r, hf, hr => by
      have hf1 : 1 ≤ f := le_trans (szV_pos _) hf
      obtain ⟨g, rfl⟩ : ∃ g, f = g + 1 := ⟨f - 1, by omega⟩
      show parseVal (g + 1) (('{' :: dumpsObj ((k, v) :: kvs) ++ ['}']) ++ r) = _
      have hsz : szV v + szO kvs ≤ g := by
        simp only [szV, szO] at hf
        omega
      have hv1 : szV v ≤ g := by have := szO_pos kvs; omega
      have hv2 : szO kvs ≤ g := by have := szV_pos v; omega
      have hd : ('{' :: dumpsObj ((k, v) :: kvs) ++ ['}']) ++ r =
          '{' :: (dumpsObj ((k, v) :: kvs) ++ '}' :: r) := by simp
      rw [hd, dumpsObj_decomp]
      have hk : dumpStr k ++ ':' :: dumps v ++ (objTailChars kvs ++ r) =
          '"' :: (k.data.flatMap escapeChar ++ ['"'] ++
            (':' :: dumps v ++ (objTailChars kvs ++ r))) := by
        unfold dumpStr
        simp
      rw [hk]
      simp only [parseVal]
      rw [if_pos trivial, if_neg (by decide)]
      rw [show ('"' :: (k.data.flatMap escapeChar ++ ['"'] ++
            (':' :: dumps v ++ (objTailChars kvs ++ r))) : List Char) =
          dumpStr k ++ ':' :: (dumps v ++ (objTailChars kvs ++ r)) from by
        unfold dumpStr
        simp]
      rw [parseKey_dumpStr]
      simp only [Option.bind_eq_bind, Option.some_bind]
      rw [parseVal_dumps v g (objTailChars kvs ++ r) hv1 (headDigit_objTail kvs r)]
      simp only [Option.some_bind]
      rw [parseObjTail_dumps kvs g r hv2 hr]
      rfl

theorem parseArrTail_dumps : ∀ (xs : List J) (f : Nat) (r : List Char), szL xs ≤ f →
    headDigit r = false → parseArrTail f (arrTailChars xs ++ r) = some (xs, r)
  | [], f, r, hf, _ => by
      have hf1 : 1 ≤ f := le_trans (szL_pos _) hf
      obtain ⟨g, rfl⟩ : ∃ g, f = g + 1 := ⟨f - 1, by omega⟩
      rfl
  | y :: ys, f, r, hf, hr => by
      have hf1 : 1 ≤ f := le_trans (szL_pos _) hf
      obtain ⟨g, rfl⟩ : ∃ g, f = g + 1 := ⟨f - 1, by omega⟩
      show parseArrTail (g + 1) ((',' :: dumps y ++ arrTailChars ys) ++ r) = _
      have hsz : szV y + szL ys ≤ g + 1 := by simpa [szL] using hf
      have hy1 : szV y ≤ g := by have := szL_pos ys; omega
      have hy2 : szL ys ≤ g := by have := szV_pos y; omega
      simp only [List.cons_append, List.append_assoc]
      simp only [parseArrTail]
      rw [if_pos trivial]
      rw [parseVal_dumps y g (arrTailChars ys ++ r) hy1 (headDigit_arrTail ys r)]
      simp only [Option.bind_eq_bind, Option.some_bind]
      rw [parseArrTail_dumps ys g r hy2 hr]
      rfl

theorem parseObjTail_dumps : ∀ (kvs : List (String × J)) (f : Nat) (r : List Char),
    szO kvs ≤ f → headDigit r = false →
    parseObjTail f (objTailChars kvs ++ r) = some (kvs, r)
  | [], f, r, hf, _ => by
      have hf1 : 1 ≤ f := le_trans (szO_pos _) hf
      obtain ⟨g, rfl⟩ : ∃ g, f = g + 1 := ⟨f - 1, by omega⟩
      rfl
  | (k, v) :: kvs, f, r, hf, hr => by
      have hf1 : 1 ≤ f := le_trans (szO_pos _) hf
      obtain ⟨g, rfl⟩ : ∃ g, f = g + 1 := ⟨f - 1, by omega⟩
      show parseObjTail (g + 1)
        ((',' :: (dumpStr k ++ ':' :: dumps v) ++ objTailChars kvs) ++ r) = _
      have hsz : szV v + szO kvs ≤ g + 1 := by simpa [szO] using hf
      have hv1 : szV v ≤ g := by have := szO_pos kvs; omega
      have hv2 : szO kvs ≤ g := by have := szV_pos v; omega
      simp only [List.cons_append, List.append_assoc]
      simp only [parseObjTail]
      rw [if_pos trivial]
      rw [parseKey_dumpStr]
      simp only [Option.bind_eq_bind, Option.some_bind]
      rw [parseVal_dumps v g (objTailChars kvs ++ r) hv1 (headDigit_objTail kvs r)]
      simp only [Option.some_bind]
      rw [parseObjTail_dumps kvs g r hv2 hr]
      rfl
end

mutual
theorem szV_le_dumps : ∀ v : J, szV v ≤ (dumps v).length
  | .null => by simp [szV, dumps]
  | .bool true => by simp [szV, dumps]
  | .bool false => by simp [szV, dumps]
  | .num n => by
      show szV (J.num n) ≤ (intRepr n).length
      unfold intRepr szV
      by_cases hn : n < 0
      · rw [if_pos hn]
        simp
      · rw [if_neg hn]
        have := List.length_pos.mpr (natRepr_ne_nil n.toNat)
        omega
  | .str s => by
      show szV (J.str s) ≤ (dumpStr s).length
      unfold dumpStr szV
      simp
  | .arr [] => by simp [szV, szL, dumps, dumpsList]
  | .arr (x :: xs) => by
      have h1 := szV_le_dumps x
      have h2 := szL_le_arrTail xs
      have hd := congrArg List.length (dumpsList_decomp x xs [])
      simp only [List.length_append, List.length_cons, List.length_nil] at hd
      show szV (J.arr (x :: xs)) ≤ ('[' :: dumpsList (x :: xs) ++ [']']).length
      simp only [szV, szL, List.length_append, List.length_cons, List.length_nil]
      omega
  | .obj [] => by simp [szV, szO, dumps, dumpsObj]
  | .obj ((k, v) :: kvs) => by
      have h1 := szV_le_dumps v
      have h2 := szO_le_objTail kvs
      have hd := congrArg List.length (dumpsObj_decomp k v kvs [])
      simp only [List.length_append, List.length_cons, List.length_nil] at hd
      show szV (J.obj ((k, v) :: kvs)) ≤ ('{' :: dumpsObj ((k, v) :: kvs) ++ ['}']).length
      simp only [szV, szO, List.length_append, List.length_cons, List.length_nil]
      omega

theorem szL_le_arrTail : ∀ xs : List J, szL xs ≤ (arrTailChars xs).length
  | [] => by simp [szL, arrTailChars]
  | y :: ys => by
      have h1 := szV_le_dumps y
      have h2 := szL_le_arrTail ys
      simp only [szL, arrTailChars, List.length_cons, List.length_append]
      omega

theorem szO_le_objTail : ∀ kvs : List (String × J), szO kvs ≤ (objTailChars kvs).length
  | [] => by simp [szO, objTailChars]
  | (k, v) :: kvs => by
      have h1 := szV_le_dumps v
      have h2 := szO_le_objTail kvs
      simp only [szO, objTailChars, List.length_cons, List.length_append]
      omega
end

theorem deserialize_serialize (v : J) : deserialize_value (serialize_value v) = some (canon v) := by
  have h := parseVal_dumps (canon v) ((dumps (canon v)).length + 1) []
    (by have := szV_le_dumps (canon v); omega) rfl
  rw [List.append_nil] at h
  unfold deserialize_value serialize_value
  rw [show (String.mk (dumps (canon v))).length = (dumps (canon v)).length from rfl,
      show (String.mk (dumps (canon v))).data = dumps (canon v) from rfl, h]

theorem dumps_inj {v w : J} (h : dumps v = dumps w) : v = w := by
  have h1 := parseVal_dumps v (max (szV v) (szV w)) [] (le_max_left _ _) rfl
  have h2 := parseVal_dumps w (max (szV v) (szV w)) [] (le_max_right _ _) rfl
  rw [List.append_nil] at h1 h2
  rw [h, h2] at h1
  simpa using h1.symm

theorem serialize_eq_iff_canon {v w : J} :
    serialize_value v = serialize_value w ↔ canon v = canon w := by
  constructor
  · intro h
    unfold serialize_value at h
    injection h with h
    exact dumps_inj h
  · intro h
    unfold serialize_value
    rw [h]

/-! ## Key-order-insensitive semantic equality

The spec's notion "same JSON value under key-order-insensitive comparison for
mappings" (recursive Python `==` on parsed JSON).  `wfJ` is the well-formedness
every `json.loads` result enjoys: mapping keys are distinct at every level. -/

/-- No key occurs twice at this level. -/
def distinctKeys : List (String × J) → Bool
  | [] => true
  | (k, _) :: rest => !(rest.any (·.1 == k)) && distinctKeys rest

mutual
/-- All mappings inside have distinct keys — true of every value `json.loads`
can produce (Python `dict`s cannot repeat a key). -/
def wfJ : J → Bool
  | .null => true
  | .bool _ => true
  | .num _ => true
  | .str _ => true
  | .arr xs => wfList xs
  | .obj kvs => distinctKeys kvs && wfObj kvs

def wfList : List J → Bool
  | [] => true
  | x :: xs => wfJ x && wfList xs

def wfObj : List (String × J) → Bool
  | [] => true
  | (_, v) :: kvs => wfJ v && wfObj kvs
end

mutual
/-- Semantic equality of JSON values: equality that compares mappings by key
lookup, insensitive to key order (Python `==` on `json.loads` results). -/
def semEq : J → J → Bool
  | .null, .null => true
  | .bool a, .bool b => a == b
  | .num a, .num b => a == b
  | .str a, .str b => a == b
  | .arr a, .arr b => semEqList a b
  | .obj a, .obj b => a.length == b.length && semEqSub a b
  | _, _ => false

def semEqList : List J → List J → Bool
  | [], [] => true
  | x :: xs, y :: ys => semEq x y && semEqList xs ys
  | _, _ => false

/-- Every entry of the first mapping is matched, by key lookup, with a
semantically equal value in the second. -/
def semEqSub : List (String × J) → List (String × J) → Bool
  | [], _ => true
  | (k, v) :: rest, b =>
      (match b.find? (·.1 == k) with
       | some q => semEq v q.2
       | none => false) && semEqSub rest b
end

theorem eq_of_perm_sorted_on {α : Type} {r : α → α → Prop} :
    ∀ (l₁ l₂ : List α), l₁.Perm l₂ → l₁.Pairwise r → l₂.Pairwise r →
      (∀ a ∈ l₁, ∀ b ∈ l₁, r a b → r b a → a = b) → l₁ = l₂
  | [], l₂, hp, _, _, _ => hp.nil_eq
  | a :: t₁, [], hp, _, _, _ => by
      have := hp.length_eq
      simp at this
  | a :: t₁, b :: t₂, hp, hs₁, hs₂, ha => by
      obtain ⟨h₁a, hp₁⟩ := List.pairwise_cons.mp hs₁
      obtain ⟨h₂b, hp₂⟩ := List.pairwise_cons.mp hs₂
      have hbMem : b ∈ a :: t₁ := hp.symm.mem_iff.mp (List.mem_cons_self b t₂)
      have haMem : a ∈ b :: t₂ := hp.mem_iff.mp (List.mem_cons_self a t₁)
      have hab : a = b := by
        rcases List.mem_cons.mp hbMem with h | h
        · exact h.symm
        · rcases List.mem_cons.mp haMem with h' | h'
          · exact h'
          · exact ha a (List.mem_cons_self a t₁) b hbMem (h₁a b h) (h₂b a h')
      subst hab
      have ht : t₁ = t₂ :=
        eq_of_perm_sorted_on t₁ t₂ hp.cons_inv hp₁ hp₂
          (fun x hx y hy hxy hyx =>
            ha x (List.mem_cons_of_mem a hx) y (List.mem_cons_of_mem a hy) hxy hyx)
      rw [ht]

theorem canonObj_map_fst : ∀ kvs : List (String × J),
    (canonObj kvs).map Prod.fst = kvs.map Prod.fst
  | [] => rfl
  | (k, v) :: kvs => by simp [canonObj, canonObj_map_fst kvs]

theorem canonObj_length : ∀ kvs : List (String × J), (canonObj kvs).length = kvs.length
  | [] => rfl
  | (k, v) :: kvs => by simp [canonObj, canonObj_length kvs]

theorem mem_canonObj_of_mem {k : String} {v : J} :
    ∀ {kvs : List (String × J)}, (k, v) ∈ kvs → (k, canon v) ∈ canonObj kvs := by
  intro kvs
  induction kvs with
  | nil => intro h; cases h
  | cons p rest ih =>
      obtain ⟨k', v'⟩ := p
      intro h
      rcases List.mem_cons.mp h with he | hm
      · rw [show k = k' from congrArg Prod.fst he, show v = v' from congrArg Prod.snd he]
        exact List.mem_cons_self _ _
      · exact List.mem_cons_of_mem _ (ih hm)

theorem mem_canonObj {p : String × J} :
    ∀ {kvs : List (String × J)}, p ∈ canonObj kvs → ∃ v, (p.1, v) ∈ kvs ∧ p.2 = canon v := by
  intro kvs
  induction kvs with
  | nil => intro h; cases h
  | cons q rest ih =>
      obtain ⟨k', v'⟩ := q
      intro h
      rcases List.mem_cons.mp h with he | hm
      · exact ⟨v', by rw [he]; exact ⟨List.mem_cons_self _ _, rfl⟩⟩
      · obtain ⟨v, hv, hp⟩ := ih hm
        exact ⟨v, List.mem_cons_of_mem _ hv, hp⟩

theorem distinctKeys_iff : ∀ {kvs : List (String × J)},
    distinctKeys kvs = true ↔ (kvs.map Prod.fst).Nodup
  | [] => by simp [distinctKeys]
  | (k, v) :: kvs => by
      simp only [distinctKeys, Bool.and_eq_true, Bool.not_eq_true', List.map_cons,
        List.nodup_cons, @distinctKeys_iff kvs]
      constructor
      · rintro ⟨h1, h2⟩
        refine ⟨?_, h2⟩
        intro hk
        obtain ⟨q, hq, hqk⟩ := List.mem_map.mp hk
        have : kvs.any (·.1 == k) = true := List.any_eq_true.mpr ⟨q, hq, by simp [hqk]⟩
        rw [this] at h1
        cases h1
      · rintro ⟨h1, h2⟩
        refine ⟨?_, h2⟩
        rw [Bool.eq_false_iff]
        intro hc
        obtain ⟨q, hq, hqk⟩ := List.any_eq_true.mp hc
        exact h1 (List.mem_map.mpr ⟨q, hq, by simpa using hqk⟩)

theorem find?_of_mem_distinct : ∀ {kvs : List (String × J)} {k : String} {v : J},
    distinctKeys kvs = true → (k, v) ∈ kvs → kvs.find? (·.1 == k) = some (k, v) := by
  intro kvs
  induction kvs with
  | nil => intro k v _ h; cases h
  | cons p rest ih =>
      obtain ⟨k', v'⟩ := p
      intro k v hd h
      simp only [distinctKeys, Bool.and_eq_true, Bool.not_eq_true'] at hd
      rcases List.mem_cons.mp h with he | hm
      · have hk : k = k' := congrArg Prod.fst he
        have hv : v = v' := congrArg Prod.snd he
        subst hk; subst hv
        simp [List.find?]
      · have hk : k' ≠ k := by
          intro he
          subst he
          have : rest.any (·.1 == k') = true := List.any_eq_true.mpr ⟨(k', v), hm, by simp⟩
          rw [this] at hd
          cases hd.1
        rw [List.find?]
        simp only [show ((k', v').1 == k) = false from by simpa using hk]
        exact ih hd.2 hm

theorem szV_mem_arr {x : J} : ∀ {xs : List J}, x ∈ xs → szV x ≤ szL xs := by
  intro xs
  induction xs with
  | nil => intro h; cases h
  | cons y ys ih =>
      intro h
      rcases List.mem_cons.mp h with he | hm
      · subst he
        simp [szL]
      · have h1 := ih hm
        have := szV_pos y
        simp [szL]
        omega

theorem szV_mem_obj {k : String} {v : J} :
    ∀ {kvs : List (String × J)}, (k, v) ∈ kvs → szV v ≤ szO kvs := by
  intro kvs
  induction kvs with
  | nil => intro h; cases h
  | cons p rest ih =>
      obtain ⟨k', v'⟩ := p
      intro h
      rcases List.mem_cons.mp h with he | hm
      · rw [show v = v' from congrArg Prod.snd he]
        simp [szO]
      · have h1 := ih hm
        have := szV_pos v'
        simp [szO]
        omega

theorem wfObj_mem : ∀ {kvs : List (String × J)} {k : String} {v : J},
    wfObj kvs = true → (k, v) ∈ kvs → wfJ v = true := by
  intro kvs
  induction kvs with
  | nil => intro k v _ h; cases h
  | cons p rest ih =>
      obtain ⟨k', v'⟩ := p
      intro k v hw h
      simp only [wfObj, Bool.and_eq_true] at hw
      rcases List.mem_cons.mp h with he | hm
      · rw [show v = v' from congrArg Prod.snd he]
        exact hw.1
      · exact ih hw.2 hm

theorem wfList_mem : ∀ {xs : List J} {x : J}, wfList xs = true → x ∈ xs → wfJ x = true := by
  intro xs
  induction xs with
  | nil => intro x _ h; cases h
  | cons y ys ih =>
      intro x hw h
      simp only [wfList, Bool.and_eq_true] at hw
      rcases List.mem_cons.mp h with he | hm
      · subst he; exact hw.1
      · exact ih hw.2 hm

theorem semEqSub_iff {b : List (String × J)} : ∀ {l : List (String × J)},
    semEqSub l b = true ↔
      ∀ p ∈ l, ∃ q, b.find? (·.1 == p.1) = some q ∧ semEq p.2 q.2 = true
  | [] => by simp [semEqSub]
  | (k, v) :: rest => by
      simp only [semEqSub, Bool.and_eq_true]
      rw [show semEqSub rest b = true ↔ _ from @semEqSub_iff b rest]
      constructor
      · rintro ⟨h1, h2⟩ p hp
        rcases List.mem_cons.mp hp with he | hm
        · subst he
          cases hf : b.find? (·.1 == k) with
          | none => rw [hf] at h1; cases h1
          | some q =>
              rw [hf] at h1
              exact ⟨q, rfl, h1⟩
        · exact h2 p hm
      · intro h
        obtain ⟨q, hq, hsem⟩ := h (k, v) (List.mem_cons_self _ _)
        refine ⟨by rw [hq]; exact hsem, fun p hp => h p (List.mem_cons_of_mem _ hp)⟩

theorem canonObj_nodup {kvs : List (String × J)} (h : distinctKeys kvs = true) :
    (canonObj kvs).Nodup := by
  have hm : ((canonObj kvs).map Prod.fst).Nodup := by
    rw [canonObj_map_fst]
    exact distinctKeys_iff.mp h
  exact hm.of_map

theorem sortPairs_perm (l : List (String × J)) : (sortPairs l).Perm l :=
  List.perm_insertionSort _ _

theorem andE {a b : Bool} (h : (a && b) = true) : a = true ∧ b = true := by
  simp at h
  exact h

theorem andI {a b : Bool} (h1 : a = true) (h2 : b = true) : (a && b) = true := by
  simp [h1, h2]

theorem sortPairs_sorted (l : List (String × J)) : (sortPairs l).Pairwise pairLe :=
  List.sorted_insertionSort _ _

theorem semEqList_iff_aux {n : Nat}
    (IH : ∀ v w, szV v ≤ n → wfJ v = true → wfJ w = true →
      (semEq v w = true ↔ canon v = canon w)) :
    ∀ (xs ys : List J), szL xs ≤ n → wfList xs = true → wfList ys = true →
      (semEqList xs ys = true ↔ canonList xs = canonList ys)
  | [], [], _, _, _ => by simp [semEqList, canonList]
  | [], y :: ys, _, _, _ => by simp [semEqList, canonList]
  | x :: xs, [], _, _, _ => by simp [semEqList, canonList]
  | x :: xs, y :: ys, hsz, hwx, hwy => by
      obtain ⟨hx1, hx2⟩ := andE (show (wfJ x && wfList xs) = true by
        simpa [wfList] using hwx)
      obtain ⟨hy1, hy2⟩ := andE (show (wfJ y && wfList ys) = true by
        simpa [wfList] using hwy)
      simp only [semEqList, canonList, Bool.and_eq_true, List.cons.injEq]
      rw [IH x y (by simp [szL] at hsz; have := szL_pos xs; omega) hx1 hy1,
          semEqList_iff_aux IH xs ys (by simp [szL] at hsz; have := szV_pos x; omega) hx2 hy2]

theorem semEqObj_iff_aux {n : Nat}
    (IH : ∀ v w, szV v ≤ n → wfJ v = true → wfJ w = true →
      (semEq v w = true ↔ canon v = canon w))
    (a b : List (String × J)) (hsz : szO a ≤ n)
    (hda : distinctKeys a = true) (hwa : wfObj a = true)
    (hdb : distinctKeys b = true) (hwb : wfObj b = true) :
    (a.length == b.length && semEqSub a b) = true ↔
      sortPairs (canonObj a) = sortPairs (canonObj b) := by
  constructor
  · intro h
    obtain ⟨hlenB, hsub⟩ := andE h
    have hlen : a.length = b.length := by simpa using hlenB
    have hsubset : canonObj a ⊆ canonObj b := by
      intro p hp
      obtain ⟨v, hv, hp2⟩ := mem_canonObj hp
      obtain ⟨q, hq, hsem⟩ := semEqSub_iff.mp hsub (p.1, v) hv
      have hq1 : q.1 = p.1 := by
        have := List.find?_some hq
        simpa using this
      have hqb : q ∈ b := List.mem_of_find?_eq_some hq
      have hwq : wfJ q.2 = true := wfObj_mem hwb (show (q.1, q.2) ∈ b from hqb)
      have hcv : canon v = canon q.2 :=
        (IH v q.2 (le_trans (szV_mem_obj hv) hsz) (wfObj_mem hwa hv) hwq).mp hsem
      have hmem : (q.1, canon q.2) ∈ canonObj b :=
        mem_canonObj_of_mem (show (q.1, q.2) ∈ b from hqb)
      have hpq : p = (q.1, canon q.2) := by
        obtain ⟨p1, p2⟩ := p
        simp only at hp2 hq1
        simp only [Prod.mk.injEq]
        exact ⟨hq1.symm, by rw [hp2, hcv]⟩
      rw [hpq]
      exact hmem
    have hperm : (canonObj a).Perm (canonObj b) :=
      (List.subperm_of_subset (canonObj_nodup hda) hsubset).perm_of_length_le
        (by rw [canonObj_length, canonObj_length, hlen])
    apply eq_of_perm_sorted_on _ _
      ((sortPairs_perm _).trans (hperm.trans (sortPairs_perm _).symm))
      (sortPairs_sorted _) (sortPairs_sorted _)
    intro x hx y hy hxy hyx
    have hkeys : ((sortPairs (canonObj a)).map Prod.fst).Nodup := by
      have h1 : ((sortPairs (canonObj a)).map Prod.fst).Perm ((canonObj a).map Prod.fst) :=
        (sortPairs_perm _).map _
      exact h1.nodup_iff.mpr (by rw [canonObj_map_fst]; exact distinctKeys_iff.mp hda)
    exact List.inj_on_of_nodup_map hkeys hx hy (strLe_antisymm hxy hyx)
  · intro h
    have hperm : (canonObj a).Perm (canonObj b) :=
      ((sortPairs_perm (canonObj a)).symm.trans (h ▸ sortPairs_perm (canonObj b)))
    refine andI ?_ ?_
    · have hlen : a.length = b.length := by
        have := hperm.length_eq
        rwa [canonObj_length, canonObj_length] at this
      simpa using hlen
    · apply semEqSub_iff.mpr
      intro p hp
      obtain ⟨k, v⟩ := p
      have h1 : (k, canon v) ∈ canonObj a := mem_canonObj_of_mem hp
      have h2 : (k, canon v) ∈ canonObj b := hperm.mem_iff.mp h1
      obtain ⟨w, hw, hcw⟩ := mem_canonObj h2
      simp only at hw hcw
      have hf : b.find? (·.1 == k) = some (k, w) := find?_of_mem_distinct hdb hw
      have hsem : semEq v w = true :=
        (IH v w (le_trans (szV_mem_obj hp) hsz) (wfObj_mem hwa hp)
          (wfObj_mem hwb hw)).mpr hcw
      exact ⟨(k, w), hf, hsem⟩

theorem semEq_iff_canon_aux : ∀ (n : Nat) (v w : J), szV v ≤ n → wfJ v = true →
    wfJ w = true → (semEq v w = true ↔ canon v = canon w) := by
  intro n
  induction n with
  | zero =>
      intro v w hv _ _
      have := szV_pos v
      omega
  | succ n IH =>
      intro v w hszv hwv hww
      cases v with
      | null => cases w <;> simp [semEq, canon]
      | bool a => cases w <;> simp [semEq, canon]
      | num a => cases w <;> simp [semEq, canon]
      | str a => cases w <;> simp [semEq, canon]
      | arr xs =>
          cases w with
          | null => simp [semEq, canon]
          | bool b => simp [semEq, canon]
          | num b => simp [semEq, canon]
          | str b => simp [semEq, canon]
          | obj kvs2 => simp [semEq, canon]
          | arr ys =>
              simp only [semEq, canon, J.arr.injEq]
              exact semEqList_iff_aux IH xs ys (by simp [szV] at hszv; omega)
                (by simpa [wfJ] using hwv) (by simpa [wfJ] using hww)
      | obj kvs =>
          cases w with
          | null => simp [semEq, canon]
          | bool b => simp [semEq, canon]
          | num b => simp [semEq, canon]
          | str b => simp [semEq, canon]
          | arr ys => simp [semEq, canon]
          | obj kvs2 =>
              simp only [semEq, canon, J.obj.injEq]
              obtain ⟨hd1, hw1⟩ := andE
                (show (distinctKeys kvs && wfObj kvs) = true by simpa [wfJ] using hwv)
              obtain ⟨hd2, hw2⟩ := andE
                (show (distinctKeys kvs2 && wfObj kvs2) = true by simpa [wfJ] using hww)
              exact semEqObj_iff_aux IH kvs kvs2 (by simp [szV] at hszv; omega)
                hd1 hw1 hd2 hw2

theorem semEq_iff_canon {v w : J} (hv : wfJ v = true) (hw : wfJ w = true) :
    semEq v w = true ↔ canon v = canon w :=
  semEq_iff_canon_aux (szV v) v w le_rfl hv hw

/-- C6: the canonical encoder produces byte-identical output exactly for
semantically equal values: for well-formed JSON values (distinct mapping keys,
as `json.loads` guarantees), `serialize_value v = serialize_value w` iff
`v` and `w` are equal under key-order-insensitive comparison of mappings; in
particular the encodings of `{"a":1,"b":2}` and `{"b":2,"a":1}` coincide. -/
theorem claim_C6_canonical_encoding :
    (∀ v w : J, wfJ v = true → wfJ w = true →
      (serialize_value v = serialize_value w ↔ semEq v w = true)) ∧
    serialize_value (.obj [("a", .num 1), ("b", .num 2)]) =
      serialize_value (.obj [("b", .num 2), ("a", .num 1)]) := by
  constructor
  · intro v w hv hw
    rw [serialize_eq_iff_canon, semEq_iff_canon hv hw]
  · rfl

/-- Witness for C6 at a concrete input: the two key orders of
`{"a":1,"b":2}` are well-formed and the equivalence instantiates to them. -/
theorem claim_C6_canonical_encoding_witness :
    serialize_value (.obj [("a", .num 1), ("b", .num 2)]) =
        serialize_value (.obj [("b", .num 2), ("a", .num 1)]) ↔
      semEq (.obj [("a", .num 1), ("b", .num 2)]) (.obj [("b", .num 2), ("a", .num 1)]) = true :=
  claim_C6_canonical_encoding.1 _ _ (by decide) (by decide)

/-! ## Characterizing the ingest loop

Per-line declarative descriptions of what the loop does: whether a line
aborts the run, the rows and merge-key registrations it contributes, and
whether it counts as processed. -/

/-- Registration of a merge key: the code runs `INSERT OR REPLACE` with the
`key_value` column equal to the `merge_key` column (both are
`serialize_value(merge_key_value)`). -/
def registerKey (t : List (String × String)) (k : String) : List (String × String) :=
  insertOrReplaceKey t k k

/-- Does processing this line raise an exception that reaches the catch-all
handler (terminating the run)?  Numbers, booleans and `null` fail the `in`
test; strings and arrays that pass the `in` test fail at `doc[key]`. -/
def lineFatal (key : String) : Line → Bool
  | .doc (.num _) => true
  | .doc (.bool _) => true
  | .doc .null => true
  | .doc (.str s) => isSubstr key s
  | .doc (.arr xs) => xs.any (· == .str key)
  | _ => false

/-- Is the line counted in `processed_lines`? -/
def lineAccepted (key : String) : Line → Bool
  | .doc (.obj kvs) => kvs.any (·.1 == key)
  | _ => false

/-- The batch rows an accepted line generates (`process_document`). -/
def lineRows (key : String) : Line → List Row
  | .doc (.obj kvs) =>
      if kvs.any (·.1 == key) then
        match kvs.find? (·.1 == key) with
        | some q =>
            (kvs.filter (·.1 != key)).flatMap fun kv =>
              rowsOfField (serialize_value q.2) kv.1 kv.2
        | none => []
      else []
  | _ => []

/-- The merge keys a line registers. -/
def lineKeys (key : String) : Line → List String
  | .doc (.obj kvs) =>
      if kvs.any (·.1 == key) then
        match kvs.find? (·.1 == key) with
        | some q => [serialize_value q.2]
        | none => []
      else []
  | _ => []

/-- The `field_values` table obtained after flushing everything: the loop
state is always equivalent to this reconciled view. -/
def reconciledRows (st : RunState) : List Row :=
  (insert_field_values_batch st.db st.batch).fieldValues

theorem insert_batch_mergeKeys (db : DB) (batch : List Row) :
    (insert_field_values_batch db batch).mergeKeys = db.mergeKeys := rfl

/-- The loop state seen through the pipeline's observable effect: the
reconciled `field_values` table, the `merge_keys` table, and the processed
count. -/
def loopCore (st : RunState) : List Row × List (String × String) × Nat :=
  (reconciledRows st, st.db.mergeKeys, st.processed)

theorem except_bind_ok {ε α β : Type} (a : α) (g : α → Except ε β) :
    ((Except.ok a : Except ε α) >>= g) = g a := rfl

theorem except_map_ok {ε α β : Type} (f : α → β) (a : α) :
    ((Except.ok a : Except ε α).map f) = .ok (f a) := rfl

theorem except_map_fmap_ok {ε α β : Type} (f : α → β) (a : α) :
    (f <$> (Except.ok a : Except ε α)) = .ok (f a) := rfl

theorem except_map_pure {ε α β : Type} (f : α → β) (a : α) :
    ((pure a : Except ε α).map f) = .ok (f a) := rfl

theorem except_fmap_pure {ε α β : Type} (f : α → β) (a : α) :
    (f <$> (pure a : Except ε α)) = .ok (f a) := rfl

theorem stepLine_ok (key : String) (bs pi : Nat) (st : RunState) (n : Nat) (l : Line)
    (hl : lineFatal key l = false) :
    (stepLine key bs pi st n l).map loopCore =
      .ok ((lineRows key l).foldl insertRowIgnore (reconciledRows st),
           (lineKeys key l).foldl registerKey st.db.mergeKeys,
           st.processed + (if lineAccepted key l then 1 else 0)) := by
  cases l with
  | blank =>
      simp [stepLine, lineRows, lineKeys, lineAccepted, loopCore, except_map_ok]
  | malformed msg =>
      simp [stepLine, lineRows, lineKeys, lineAccepted, loopCore, reconciledRows,
        except_map_ok]
  | doc v =>
      cases v with
      | num a => simp [lineFatal] at hl
      | bool a => simp [lineFatal] at hl
      | null => simp [lineFatal] at hl
      | str s =>
          simp only [lineFatal] at hl
          simp only [stepLine, pyContains]
          rw [hl]
          simp [lineRows, lineKeys, lineAccepted, loopCore, reconciledRows,
            except_bind_ok, except_map_ok, except_map_pure]
      | arr xs =>
          simp only [lineFatal] at hl
          simp only [stepLine, pyContains]
          rw [hl]
          simp [lineRows, lineKeys, lineAccepted, loopCore, reconciledRows,
            except_bind_ok, except_map_ok, except_map_pure]
      | obj kvs =>
          by_cases hc : kvs.any (·.1 == key)
          · cases hq : kvs.find? (·.1 == key) with
            | none =>
                exfalso
                obtain ⟨p, hp, hpk⟩ := List.any_eq_true.mp hc
                have := List.find?_eq_none.mp hq p hp
                rw [hpk] at this
                cases this rfl
            | some q =>
                simp only [stepLine, pyContains, process_document, pyGetItem, pyItems, hc, hq,
                  except_bind_ok, except_map_ok, except_map_fmap_ok, Bool.not_true,
                  if_neg (show ¬(false = true) by decide)]
                split <;>
                  simp [lineRows, lineKeys, lineAccepted, loopCore, reconciledRows,
                    registerKey, insert_field_values_batch, List.foldl_append, hc, hq,
                    except_map_ok, except_map_fmap_ok, except_map_pure, except_fmap_pure]
          · have hc2 : (kvs.any (·.1 == key)) = false := by
              cases hB : kvs.any (·.1 == key)
              · rfl
              · exact absurd hB hc
            simp only [stepLine, pyContains, except_bind_ok, hc2]
            simp [lineRows, lineKeys, lineAccepted, loopCore, reconciledRows, hc2,
              except_map_ok, except_map_pure]

theorem rowLe_fieldName {r s : Row} (h : rowLe r s) :
    strLe r.fieldName s.fieldName = true := by
  unfold rowLe at h
  by_cases hf : r.fieldName = s.fieldName
  · rw [hf]; exact strLe_refl _
  · simpa [hf] using h

theorem runLines_ok (key : String) (bs pi : Nat) (ls : List Line) :
    ∀ (st : RunState) (n : Nat), (∀ l ∈ ls, lineFatal key l = false) →
    (runLines key bs pi st n ls).map loopCore =
      .ok ((ls.flatMap (lineRows key)).foldl insertRowIgnore (reconciledRows st),
           (ls.flatMap (lineKeys key)).foldl registerKey st.db.mergeKeys,
           st.processed + ls.countP (lineAccepted key)) := by
  induction ls with
  | nil =>
      intro st n _
      simp [runLines, loopCore, except_map_ok]
  | cons l rest ih =>
      intro st n h
      have h1 : lineFatal key l = false := h l (List.mem_cons_self l rest)
      have hs := stepLine_ok key bs pi st n l h1
      cases he : stepLine key bs pi st n l with
      | error e =>
          rw [he] at hs
          rw [show Except.map loopCore (Except.error e : Except PyErr RunState) =
            .error e from rfl] at hs
          cases hs
      | ok st2 =>
          rw [he, except_map_ok] at hs
          have hcore := Except.ok.inj hs
          have hR : reconciledRows st2 =
              (lineRows key l).foldl insertRowIgnore (reconciledRows st) :=
            congrArg Prod.fst hcore
          have hK : st2.db.mergeKeys =
              (lineKeys key l).foldl registerKey st.db.mergeKeys :=
            congrArg (fun t => t.2.1) hcore
          have hP : st2.processed = st.processed + (if lineAccepted key l then 1 else 0) :=
            congrArg (fun t => t.2.2) hcore
          rw [show runLines key bs pi st n (l :: rest) =
            stepLine key bs pi st n l >>= fun s2 => runLines key bs pi s2 (n + 1) rest
            from rfl, he, except_bind_ok]
          rw [ih st2 (n + 1) (fun x hx => h x (List.mem_cons_of_mem l hx))]
          rw [hR, hK, hP]
          simp [List.foldl_append, List.countP_cons]
          omega

/-! ## The reconciled database of a fatal-free run -/

/-- The `field_values` content a run reconciles to: every accepted line's rows,
inserted with `INSERT OR IGNORE` in stream order (batching collapsed). -/
def runRows (key : String) (input : List Line) : List Row :=
  (input.flatMap (lineRows key)).foldl insertRowIgnore []

/-- The `merge_keys` content of a run. -/
def runKeys (key : String) (input : List Line) : List (String × String) :=
  (input.flatMap (lineKeys key)).foldl registerKey []

/-- The database a fatal-free run leaves behind after the final flush. -/
def runDB (key : String) (input : List Line) : DB :=
  ⟨runKeys key input, runRows key input⟩

/-- The output stream of a pipeline result: the exported lines on success,
nothing when the run aborted. -/
def runOutput (r : Except PyErr (List String × List Diag)) : Option (List String) :=
  r.toOption.map Prod.fst

theorem stream_merge_ok (input : List Line) (key : String) (bs pi : Nat)
    (h : ∀ l ∈ input, lineFatal key l = false) :
    ∃ ds : List Diag,
      stream_merge_jsonl_optimized input key bs pi =
        match export_merged_data (runDB key input) key with
        | none => .error .codecFailure
        | some out =>
            .ok (out, ds ++ [.summary (input.countP (lineAccepted key)), .complete]) := by
  have hs := runLines_ok key bs pi input ⟨open_sqlite, [], 0, []⟩ 1 h
  cases he : runLines key bs pi ⟨open_sqlite, [], 0, []⟩ 1 input with
  | error e =>
      rw [he] at hs
      rw [show Except.map loopCore (Except.error e : Except PyErr RunState) =
        .error e from rfl] at hs
      cases hs
  | ok st =>
      rw [he, except_map_ok] at hs
      have hcore := Except.ok.inj hs
      have hR : reconciledRows st = runRows key input := by
        have := congrArg Prod.fst hcore
        simpa [runRows, reconciledRows, insert_field_values_batch, open_sqlite] using this
      have hK : st.db.mergeKeys = runKeys key input := by
        have := congrArg (fun t : List Row × List (String × String) × Nat => t.2.1) hcore
        simpa [runKeys] using this
      have hP : st.processed = input.countP (lineAccepted key) := by
        have := congrArg (fun t : List Row × List (String × String) × Nat => t.2.2) hcore
        simpa using this
      refine ⟨st.diags, ?_⟩
      have hdb : insert_field_values_batch st.db st.batch = runDB key input := by
        have h1 : (insert_field_values_batch st.db st.batch).mergeKeys = runKeys key input := by
          rw [insert_batch_mergeKeys]; exact hK
      
        have h2 : (insert_field_values_batch st.db st.batch).fieldValues = runRows key input :=
          hR
        calc insert_field_values_batch st.db st.batch
            = ⟨(insert_field_values_batch st.db st.batch).mergeKeys,
               (insert_field_values_batch st.db st.batch).fieldValues⟩ := rfl
          _ = runDB key input := by rw [h1, h2]; rfl
      rw [show stream_merge_jsonl_optimized input key bs pi =
        (runLines key bs pi ⟨open_sqlite, [], 0, []⟩ 1 input >>= fun st => do
          let db := insert_field_values_batch st.db st.batch
          let diags := st.diags ++ [.summary st.processed]
          match export_merged_data db key with
          | none => .error .codecFailure
          | some out => .ok (out, diags ++ [.complete])) from rfl, he, except_bind_ok]
      rw [hdb, hP]
      show (match export_merged_data (runDB key input) key with
        | none => (Except.error .codecFailure : Except PyErr (List String × List Diag))
        | some out =>
            .ok (out, (st.diags ++ [Diag.summary (input.countP (lineAccepted key))]) ++
              [Diag.complete])) = _
      cases export_merged_data (runDB key input) key with
      | none => rfl
      | some out => simp

theorem stream_merge_output (input : List Line) (key : String) (bs pi : Nat)
    (h : ∀ l ∈ input, lineFatal key l = false) :
    runOutput (stream_merge_jsonl_optimized input key bs pi) =
      export_merged_data (runDB key input) key := by
  obtain ⟨ds, hds⟩ := stream_merge_ok input key bs pi h
  rw [hds]
  cases export_merged_data (runDB key input) key with
  | none => rfl
  | some out => rfl

/-! ## Fatal lines abort the run -/

theorem except_bind_error {ε α β : Type} (e : ε) (g : α → Except ε β) :
    ((Except.error e : Except ε α) >>= g) = .error e := rfl

theorem stepLine_fatal (key : String) (bs pi : Nat) (st : RunState) (n : Nat) (l : Line)
    (h : lineFatal key l = true) :
    ∃ e, stepLine key bs pi st n l = .error e := by
  cases l with
  | blank => simp [lineFatal] at h
  | malformed m => simp [lineFatal] at h
  | doc v =>
      cases v with
      | num a => exact ⟨.notIterable "int", rfl⟩
      | bool b => exact ⟨.notIterable "bool", rfl⟩
      | null => exact ⟨.notIterable "NoneType", rfl⟩
      | str s =>
          simp only [lineFatal] at h
          refine ⟨.strIndices, ?_⟩
          simp [stepLine, pyContains, h, process_document, pyGetItem, except_bind_ok,
            except_bind_error]
      | arr xs =>
          simp only [lineFatal] at h
          refine ⟨.listIndices, ?_⟩
          simp [stepLine, pyContains, h, process_document, pyGetItem, except_bind_ok,
            except_bind_error]
      | obj kvs => simp [lineFatal] at h

theorem runLines_error (key : String) (bs pi : Nat) :
    ∀ (ls : List Line) (st : RunState) (n : Nat),
      ls.any (lineFatal key) = true →
      ∃ e, runLines key bs pi st n ls = .error e := by
  intro ls
  induction ls with
  | nil => intro st n h; simp at h
  | cons l rest ih =>
      intro st n h
      cases hl : lineFatal key l with
      | true =>
          obtain ⟨e, he⟩ := stepLine_fatal key bs pi st n l hl
          refine ⟨e, ?_⟩
          rw [show runLines key bs pi st n (l :: rest) =
            stepLine key bs pi st n l >>= fun s2 => runLines key bs pi s2 (n + 1) rest
            from rfl, he]
          rfl
      | false =>
          have hs := stepLine_ok key bs pi st n l hl
          cases he : stepLine key bs pi st n l with
          | error e =>
              rw [he] at hs
              rw [show Except.map loopCore (Except.error e : Except PyErr RunState) =
                .error e from rfl] at hs
              cases hs
          | ok st2 =>
              have hrest : rest.any (lineFatal key) = true := by
                rw [List.any_cons, hl] at h
                simpa using h
              obtain ⟨e, hre⟩ := ih st2 (n + 1) hrest
              refine ⟨e, ?_⟩
              rw [show runLines key bs pi st n (l :: rest) =
                stepLine key bs pi st n l >>= fun s2 => runLines key bs pi s2 (n + 1) rest
                from rfl, he, except_bind_ok, hre]

theorem stream_merge_error (input : List Line) (key : String) (bs pi : Nat)
    (h : input.any (lineFatal key) = true) :
    ∃ e, stream_merge_jsonl_optimized input key bs pi = .error e := by
  obtain ⟨e, he⟩ := runLines_error key bs pi input ⟨open_sqlite, [], 0, []⟩ 1 h
  refine ⟨e, ?_⟩
  rw [show stream_merge_jsonl_optimized input key bs pi =
    (runLines key bs pi ⟨open_sqlite, [], 0, []⟩ 1 input >>= fun st => do
      let db := insert_field_values_batch st.db st.batch
      let diags := st.diags ++ [.summary st.processed]
      match export_merged_data db key with
      | none => .error .codecFailure
      | some out => .ok (out, diags ++ [.complete])) from rfl, he]
  rfl

/-- C8: a record (a JSON object line) that lacks the configured merge-key
field is skipped: the loop step leaves the database, the batch and the
processed count untouched and appends exactly one warning diagnostic naming
the line; and deleting such a record from any fatal-free input leaves the
exported output byte-identical, so no part of the record reaches any
exported record. -/
theorem claim_C8_missing_key_skip (key : String) (kvs : List (String × J))
    (hmiss : kvs.any (·.1 == key) = false) :
    (∀ (bs pi : Nat) (st : RunState) (n : Nat),
        stepLine key bs pi st n (.doc (.obj kvs)) =
          .ok ⟨st.db, st.batch, st.processed, st.diags ++ [.missingKey n key]⟩) ∧
    (∀ (pre post : List Line) (bs pi : Nat),
        (∀ l ∈ pre ++ post, lineFatal key l = false) →
        runOutput (stream_merge_jsonl_optimized (pre ++ .doc (.obj kvs) :: post) key bs pi) =
          runOutput (stream_merge_jsonl_optimized (pre ++ post) key bs pi)) := by
  constructor
  · intro bs pi st n
    simp only [stepLine, pyContains, hmiss, except_bind_ok, Bool.not_false, if_pos]
    rfl
  · intro pre post bs pi hff
    have hbad : lineFatal key (.doc (.obj kvs)) = false := rfl
    have hff1 : ∀ l ∈ pre ++ .doc (.obj kvs) :: post, lineFatal key l = false := by
      intro l hl
      rcases List.mem_append.mp hl with h1 | h2
      · exact hff l (List.mem_append.mpr (Or.inl h1))
      · rcases List.mem_cons.mp h2 with rfl | h3
        · exact hbad
        · exact hff l (List.mem_append.mpr (Or.inr h3))
    rw [stream_merge_output _ key bs pi hff1, stream_merge_output _ key bs pi hff]
    have hrows : (pre ++ .doc (.obj kvs) :: post).flatMap (lineRows key) =
        (pre ++ post).flatMap (lineRows key) := by
      simp [lineRows, hmiss]
    have hkeys : (pre ++ .doc (.obj kvs) :: post).flatMap (lineKeys key) =
        (pre ++ post).flatMap (lineKeys key) := by
      simp [lineKeys, hmiss]
    have hdb : runDB key (pre ++ .doc (.obj kvs) :: post) = runDB key (pre ++ post) := by
      unfold runDB runRows runKeys
      rw [hrows, hkeys]
    rw [hdb]

set_option maxRecDepth 100000 in
/-- Witness for C8 at concrete inputs: the record `{"name":"Bob"}` under merge
key `"id"` is skipped with one warning on line 3, and removing it from a
two-line input leaves the output unchanged. -/
theorem claim_C8_missing_key_skip_witness :
    (stepLine "id" 1000 10000 ⟨open_sqlite, [], 0, []⟩ 3 (.doc (.obj [("name", .str "Bob")])) =
      .ok ⟨open_sqlite, [], 0, [.missingKey 3 "id"]⟩) ∧
    runOutput (stream_merge_jsonl_optimized
        [.doc (.obj [("id", .num 1), ("a", .num 2)]), .doc (.obj [("name", .str "Bob")])]
        "id" 1000 10000) =
      runOutput (stream_merge_jsonl_optimized
        [.doc (.obj [("id", .num 1), ("a", .num 2)])] "id" 1000 10000) :=
  ⟨(claim_C8_missing_key_skip "id" [("name", .str "Bob")] (by decide)).1
      1000 10000 ⟨open_sqlite, [], 0, []⟩ 3,
   (claim_C8_missing_key_skip "id" [("name", .str "Bob")] (by decide)).2
      [.doc (.obj [("id", .num 1), ("a", .num 2)])] [] 1000 10000 (by decide)⟩

/-- C9 (amended): after a successful fatal-free run the user-visible closing
messages are exactly one summary line reporting the count of accepted
(processed) lines followed by the completion message.  The summary does not
itemize skipped-empty, skipped-parse-error or skipped-missing-key lines, nor
the number of exported merge keys. -/
theorem claim_C9_summary_processed_only (input : List Line) (key : String) (bs pi : Nat)
    (h : ∀ l ∈ input, lineFatal key l = false) :
    ∀ out diags, stream_merge_jsonl_optimized input key bs pi = .ok (out, diags) →
      ∃ ds, diags = ds ++ [.summary (input.countP (lineAccepted key)), .complete] := by
  intro out diags hok
  obtain ⟨ds, hds⟩ := stream_merge_ok input key bs pi h
  rw [hds] at hok
  cases hexp : export_merged_data (runDB key input) key with
  | none => rw [hexp] at hok; cases hok
  | some out' =>
      rw [hexp] at hok
      exact ⟨ds, (Prod.mk.injEq _ _ _ _ ▸ Except.ok.inj hok).2.symm⟩

set_option maxRecDepth 1000000 in
/-- Witness for the amended C9 on a one-line input: the closing diagnostics
are a summary of the one accepted line and the completion message. -/
theorem claim_C9_summary_processed_only_witness :
    ∃ ds, [(Diag.summary 1), Diag.complete] =
      ds ++ [.summary (List.countP (lineAccepted "id") [.doc (.obj [("id", .num 1)])]),
        .complete] :=
  claim_C9_summary_processed_only [.doc (.obj [("id", .num 1)])] "id" 1000 10000
    (by decide) ["\x7b\"id\":1\x7d"] [.summary 1, .complete] rfl

set_option maxRecDepth 1000000 in
/-- Counterexample to C9 as stated: two runs that differ in every itemized
count the claim says the summary reports — skipped-empty lines (0 vs 1),
skipped-parse-error lines (0 vs 1), skipped-missing-key lines (0 vs 1) and
exported merge keys (1 vs 2) — end with the byte-identical final summary
`Processed 2 total lines`, because the summary only ever reports the
accepted-line count. -/
theorem claim_C9_summary_counterexample :
    (stream_merge_jsonl_optimized
        [.doc (.obj [("id", .num 1)]), .doc (.obj [("id", .num 1)])] "id" 1000 10000 =
      .ok (["\x7b\"id\":1\x7d"], [.summary 2, .complete])) ∧
    (stream_merge_jsonl_optimized
        [.blank, .malformed "Expecting value", .doc (.obj [("name", .str "q")]),
         .doc (.obj [("id", .num 1)]), .doc (.obj [("id", .num 2)])] "id" 1000 10000 =
      .ok (["\x7b\"id\":1\x7d", "\x7b\"id\":2\x7d"],
           [.invalidJson 2 "Expecting value", .missingKey 3 "id", .summary 2,
            .complete])) :=
  ⟨rfl, rfl⟩

/-! ## Export grouping: what a field is assigned in the reconstructed record -/

/-- Look a field up in a reconstructed record (association-list lookup, the
observable content of `merged_doc[field]`). -/
def findA (doc : List (String × J)) (f : String) : Option J :=
  (doc.find? (·.1 == f)).map (·.2)

/-- The collapse rule of the export pass: one value is assigned bare, any
other number of values is assigned as an array (lines 158–163, 171–176). -/
def collapse (vals : List J) : J :=
  match vals with
  | [v] => v
  | _ => .arr vals

/-- The export pass's decoding of one row's `value_data`. -/
def decodeRow (r : Row) : J := (deserialize_value r.valueData).getD .null

theorem flushField_eq (doc : List (String × J)) (f : String) (vals : List J) :
    flushField doc (some f) vals = assignField doc f (collapse vals) := by
  match vals with
  | [] => rfl
  | [v] => rfl
  | v :: w :: t => rfl

theorem find?_append_none {α : Type} {q : α → Bool} :
    ∀ {l₁ : List α} (l₂ : List α), l₁.find? q = none → (l₁ ++ l₂).find? q = l₂.find? q := by
  intro l₁
  induction l₁ with
  | nil => intro l₂ _; rfl
  | cons a t ih =>
      intro l₂ h
      rw [List.find?_cons] at h
      cases hq : q a with
      | true => rw [hq] at h; cases h
      | false =>
          rw [hq] at h
          rw [List.cons_append, List.find?_cons, hq]
          exact ih l₂ h

theorem find?_append_some {α : Type} {q : α → Bool} {x : α} :
    ∀ {l₁ : List α} (l₂ : List α), l₁.find? q = some x → (l₁ ++ l₂).find? q = some x := by
  intro l₁
  induction l₁ with
  | nil => intro l₂ h; cases h
  | cons a t ih =>
      intro l₂ h
      rw [List.find?_cons] at h
      rw [List.cons_append, List.find?_cons]
      cases hq : q a with
      | true => rw [hq] at h; exact h
      | false => rw [hq] at h; exact ih l₂ h

theorem find?_assign_self (f : String) (v : J) :
    ∀ doc : List (String × J), doc.any (·.1 == f) = true →
      (doc.map fun p => if p.1 == f then (f, v) else p).find? (·.1 == f) = some (f, v)
  | [], hany => by simp at hany
  | p :: rest, hany => by
      rw [List.map_cons, List.find?_cons]
      cases hbp : (p.1 == f) with
      | true =>
          rw [show (if true = true then (f, v) else p) = (f, v) from rfl]
          rw [show ((f, v).1 == f) = true from beq_self_eq_true f]
      | false =>
          have hrest : rest.any (·.1 == f) = true := by
            rw [List.any_cons, hbp] at hany
            simpa using hany
          rw [show (if false = true then (f, v) else p) = p from rfl]
          rw [hbp]
          exact find?_assign_self f v rest hrest

theorem find?_assign_ne (g f : String) (v : J) (hgf : (g == f) = false) :
    ∀ doc : List (String × J),
      (doc.map fun p => if p.1 == g then (g, v) else p).find? (·.1 == f) =
        doc.find? (·.1 == f)
  | [] => rfl
  | p :: rest => by
      rw [List.map_cons, List.find?_cons, List.find?_cons]
      cases hbp : (p.1 == g) with
      | true =>
          have hp1 : p.1 = g := by simpa using hbp
          have hpf : (p.1 == f) = false := by rw [hp1]; exact hgf
          rw [show (if true = true then (g, v) else p) = (g, v) from rfl]
          rw [show ((g, v).1 == f) = false from hgf, hpf]
          exact find?_assign_ne g f v hgf rest
      | false =>
          rw [show (if false = true then (g, v) else p) = p from rfl]
          cases hq : (p.1 == f) with
          | true => rfl
          | false => exact find?_assign_ne g f v hgf rest

theorem assignField_find_self (doc : List (String × J)) (f : String) (v : J) :
    findA (assignField doc f v) f = some v := by
  unfold assignField
  by_cases hany : doc.any (·.1 == f)
  · rw [if_pos hany]
    unfold findA
    rw [find?_assign_self f v doc hany]
    rfl
  · rw [if_neg hany]
    unfold findA
    have hnone : doc.find? (·.1 == f) = none := by
      rw [List.find?_eq_none]
      intro p hp hc
      exact hany (List.any_eq_true.mpr ⟨p, hp, hc⟩)
    rw [find?_append_none _ hnone]
    simp [List.find?_cons]

theorem assignField_find_other (doc : List (String × J)) (f g : String) (v : J)
    (hfg : f ≠ g) :
    findA (assignField doc g v) f = findA doc f := by
  have hgf : (g == f) = false := by
    rw [beq_eq_false_iff_ne]
    exact Ne.symm hfg
  unfold assignField
  by_cases hany : doc.any (·.1 == g)
  · rw [if_pos hany]
    unfold findA
    rw [find?_assign_ne g f v hgf doc]
  · rw [if_neg hany]
    unfold findA
    cases hd : doc.find? (·.1 == f) with
    | some x => rw [find?_append_some _ hd]
    | none =>
        rw [find?_append_none _ hd]
        simp [List.find?_cons, hgf]

theorem filter_eq_nil_of_false {α : Type} {p : α → Bool} :
    ∀ {l : List α}, (∀ a ∈ l, p a = false) → l.filter p = []
  | [], _ => rfl
  | a :: t, h => by
      rw [List.filter_cons, if_neg (by simp [h a (List.mem_cons_self a t)])]
      exact filter_eq_nil_of_false (fun x hx => h x (List.mem_cons_of_mem a hx))

theorem any_eq_false_of {α : Type} {p : α → Bool} {l : List α}
    (h : ∀ a ∈ l, p a = false) : l.any p = false := by
  cases hb : l.any p with
  | false => rfl
  | true =>
      obtain ⟨x, hx, hpx⟩ := List.any_eq_true.mp hb
      rw [h x hx] at hpx
      cases hpx

theorem groupRows_cons (r : Row) (rest : List Row) (doc : List (String × J))
    (cur : Option String) (vals : List J) (v : J)
    (hv : deserialize_value r.valueData = some v) :
    groupRows (r :: rest) doc cur vals =
      if cur = some r.fieldName then groupRows rest doc cur (vals ++ [v])
      else groupRows rest (flushField doc cur vals) (some r.fieldName) [v] := by
  simp only [groupRows, hv, Option.bind_eq_bind, Option.some_bind]

theorem groupRows_find_aux (f : String) :
    ∀ (rows : List Row), ∀ (doc : List (String × J)) (g : String) (vals : List J),
      rows.Pairwise rowLe →
      (∀ r ∈ rows, (deserialize_value r.valueData).isSome = true) →
      (∀ r ∈ rows, strLe g r.fieldName = true) →
      ∃ doc', groupRows rows doc (some g) vals = some doc' ∧
        findA doc' f =
          (if g = f then
            some (collapse (vals ++ (rows.filter (·.fieldName == f)).map decodeRow))
           else if rows.any (·.fieldName == f) = true then
            some (collapse ((rows.filter (·.fieldName == f)).map decodeRow))
           else findA doc f) := by
  intro rows
  induction rows with
  | nil =>
      intro doc g vals _ _ _
      refine ⟨flushField doc (some g) vals, rfl, ?_⟩
      rw [flushField_eq]
      by_cases hgf : g = f
      · subst hgf
        simp [assignField_find_self]
      · rw [if_neg hgf]
        simp only [List.any_nil]
        rw [if_neg (show ¬(false = true) by decide)]
        exact assignField_find_other doc f g (collapse vals) (fun he => hgf he.symm)
  | cons r rest ih =>
      intro doc g vals hs hd hg
      obtain ⟨v, hv⟩ : ∃ v, deserialize_value r.valueData = some v :=
        Option.isSome_iff_exists.mp (hd r (List.mem_cons_self r rest))
      have hsrest : rest.Pairwise rowLe := (List.pairwise_cons.mp hs).2
      have hrle : ∀ s ∈ rest, rowLe r s := (List.pairwise_cons.mp hs).1
      have hdrest : ∀ s ∈ rest, (deserialize_value s.valueData).isSome = true :=
        fun s hsm => hd s (List.mem_cons_of_mem r hsm)
      have hgrest : ∀ s ∈ rest, strLe r.fieldName s.fieldName = true :=
        fun s hsm => rowLe_fieldName (hrle s hsm)
      have hdec : decodeRow r = v := by simp [decodeRow, hv]
      by_cases hfield : g = r.fieldName
      · have hstep : groupRows (r :: rest) doc (some g) vals =
            groupRows rest doc (some g) (vals ++ [v]) := by
          rw [groupRows_cons r rest doc (some g) vals v hv, if_pos (by rw [hfield])]
        obtain ⟨doc2, hdoc2, hfind⟩ := ih doc g (vals ++ [v]) hsrest hdrest
          (fun s hsm => by rw [hfield]; exact hgrest s hsm)
        refine ⟨doc2, by rw [hstep]; exact hdoc2, ?_⟩
        rw [hfind]
        by_cases hgf : g = f
        · rw [if_pos hgf, if_pos hgf]
          have hrf : r.fieldName = f := by rw [← hfield, hgf]
          have hbf : (r.fieldName == f) = true := by
            rw [hrf]
            exact beq_self_eq_true f
          rw [List.filter_cons, if_pos hbf, List.map_cons, hdec, List.append_assoc]
          rfl
        · rw [if_neg hgf, if_neg hgf]
          have hrf : (r.fieldName == f) = false := by
            rw [beq_eq_false_iff_ne, ← hfield]
            exact hgf
          have hnbf : ¬((r.fieldName == f) = true) := by
            rw [hrf]
            exact Bool.false_ne_true
          rw [List.any_cons, hrf, Bool.false_or, List.filter_cons, if_neg hnbf]
      · have hstep : groupRows (r :: rest) doc (some g) vals =
            groupRows rest (flushField doc (some g) vals) (some r.fieldName) [v] := by
          rw [groupRows_cons r rest doc (some g) vals v hv,
            if_neg (fun hc => hfield (Option.some.inj hc))]
        obtain ⟨doc2, hdoc2, hfind⟩ :=
          ih (flushField doc (some g) vals) r.fieldName [v] hsrest hdrest hgrest
        refine ⟨doc2, by rw [hstep]; exact hdoc2, ?_⟩
        rw [hfind, flushField_eq]
        by_cases hgf : g = f
        · have hrf : r.fieldName ≠ f := fun he => hfield (hgf.trans he.symm)
          have hbrf : (r.fieldName == f) = false := by
            rw [beq_eq_false_iff_ne]
            exact hrf
          have hnof : ∀ s ∈ rest, (s.fieldName == f) = false := by
            intro s hsm
            rw [beq_eq_false_iff_ne]
            intro he
            have h1 : strLe f r.fieldName = true := by
              rw [← hgf]
              exact hg r (List.mem_cons_self r rest)
            have h2 : strLe r.fieldName f = true := by
              rw [← he]
              exact hgrest s hsm
            exact hrf (strLe_antisymm h2 h1)
          have hfilter : rest.filter (·.fieldName == f) = [] :=
            filter_eq_nil_of_false hnof
          have hany : rest.any (·.fieldName == f) = false := any_eq_false_of hnof
          have hnbf : ¬((r.fieldName == f) = true) := by
            rw [hbrf]
            exact Bool.false_ne_true
          rw [if_neg hrf, hany, if_neg (show ¬(false = true) by decide), if_pos hgf]
          rw [List.filter_cons, if_neg hnbf, hfilter]
          rw [show (([] : List Row).map decodeRow) = [] from rfl, List.append_nil]
          rw [hgf]
          exact assignField_find_self doc f (collapse vals)
        · by_cases hrff : r.fieldName = f
          · rw [if_pos hrff, if_neg hgf]
            have hbf : (r.fieldName == f) = true := by
              rw [hrff]
              exact beq_self_eq_true f
            rw [List.any_cons, hbf, Bool.true_or, if_pos rfl]
            rw [List.filter_cons, if_pos hbf, List.map_cons, hdec]
            rfl
          · rw [if_neg hrff, if_neg hgf]
            have hbf : (r.fieldName == f) = false := by
              rw [beq_eq_false_iff_ne]
              exact hrff
            have hnbf : ¬((r.fieldName == f) = true) := by
              rw [hbf]
              exact Bool.false_ne_true
            rw [List.any_cons, hbf, Bool.false_or, List.filter_cons, if_neg hnbf]
            by_cases hra : rest.any (·.fieldName == f) = true
            · rw [if_pos hra, if_pos hra]
            · rw [if_neg hra, if_neg hra]
              exact assignField_find_other doc f g (collapse vals) (fun he => hgf he.symm)

theorem groupRows_find (key : String) (keyVal : J) (f : String) (rows : List Row)
    (hs : rows.Pairwise rowLe)
    (hd : ∀ r ∈ rows, (deserialize_value r.valueData).isSome = true)
    (hf : f ≠ key) :
    ∃ doc', groupRows rows [(key, keyVal)] none [] = some doc' ∧
      findA doc' f =
        (if rows.any (·.fieldName == f) = true then
          some (collapse ((rows.filter (·.fieldName == f)).map decodeRow))
         else none) := by
  have hkf : (key == f) = false := by
    rw [beq_eq_false_iff_ne]
    exact Ne.symm hf
  cases rows with
  | nil =>
      refine ⟨[(key, keyVal)], rfl, ?_⟩
      simp only [List.any_nil]
      rw [if_neg (show ¬(false = true) by decide)]
      simp [findA, List.find?_cons, hkf]
  | cons r rest =>
      obtain ⟨v, hv⟩ : ∃ v, deserialize_value r.valueData = some v :=
        Option.isSome_iff_exists.mp (hd r (List.mem_cons_self r rest))
      have hstep : groupRows (r :: rest) [(key, keyVal)] none [] =
          groupRows rest [(key, keyVal)] (some r.fieldName) [v] := by
        rw [groupRows_cons r rest [(key, keyVal)] none [] v hv,
          if_neg (fun hc => Option.noConfusion hc)]
        rfl
      have hsrest := (List.pairwise_cons.mp hs).2
      have hdrest : ∀ s ∈ rest, (deserialize_value s.valueData).isSome = true :=
        fun s hsm => hd s (List.mem_cons_of_mem r hsm)
      have hgrest : ∀ s ∈ rest, strLe r.fieldName s.fieldName = true :=
        fun s hsm => rowLe_fieldName ((List.pairwise_cons.mp hs).1 s hsm)
      obtain ⟨doc', hdoc', hfind⟩ :=
        groupRows_find_aux f rest [(key, keyVal)] r.fieldName [v] hsrest hdrest hgrest
      refine ⟨doc', by rw [hstep]; exact hdoc', ?_⟩
      rw [hfind]
      have hdec : decodeRow r = v := by simp [decodeRow, hv]
      by_cases hrf : r.fieldName = f
      · rw [if_pos hrf]
        have hbf : (r.fieldName == f) = true := by
          rw [hrf]
          exact beq_self_eq_true f
        rw [List.any_cons, hbf, Bool.true_or, if_pos rfl]
        rw [List.filter_cons, if_pos hbf, List.map_cons, hdec]
        rfl
      · rw [if_neg hrf]
        have hbf : (r.fieldName == f) = false := by
          rw [beq_eq_false_iff_ne]
          exact hrf
        have hnbf : ¬((r.fieldName == f) = true) := by
          rw [hbf]
          exact Bool.false_ne_true
        rw [List.any_cons, hbf, Bool.false_or, List.filter_cons, if_neg hnbf]
        by_cases hra : rest.any (·.fieldName == f) = true
        · rw [if_pos hra, if_pos hra]
        · rw [if_neg hra, if_neg hra]
          simp [findA, List.find?_cons, hkf]

/-! ## Idempotence of the canonical form -/

theorem canonList_eq_map : ∀ xs : List J, canonList xs = xs.map canon
  | [] => rfl
  | x :: xs => by rw [canonList, List.map_cons, canonList_eq_map xs]

theorem canonObj_fixed : ∀ {l : List (String × J)},
    (∀ p ∈ l, canon p.2 = p.2) → canonObj l = l
  | [], _ => rfl
  | (k, v) :: t, h => by
      rw [canonObj, show canon v = v from h (k, v) (List.mem_cons_self _ _),
        canonObj_fixed (fun p hp => h p (List.mem_cons_of_mem _ hp))]

theorem sortPairs_sortPairs (l : List (String × J)) :
    sortPairs (sortPairs l) = sortPairs l :=
  List.Sorted.insertionSort_eq (sortPairs_sorted l)

theorem canon_canon_aux : ∀ n : Nat, ∀ v : J, szV v ≤ n → canon (canon v) = canon v := by
  intro n
  induction n with
  | zero =>
      intro v hv
      exact absurd hv (by have := szV_pos v; omega)
  | succ n ih =>
      intro v hv
      cases v with
      | null => rfl
      | bool b => rfl
      | num m => rfl
      | str s => rfl
      | arr xs =>
          rw [show canon (.arr xs) = .arr (canonList xs) from rfl,
            show canon (.arr (canonList xs)) = .arr (canonList (canonList xs)) from rfl]
          rw [canonList_eq_map, canonList_eq_map, List.map_map]
          congr 1
          apply List.map_congr_left
          intro x hx
          have hsz : szV x ≤ n := by
            have h1 := szV_mem_arr hx
            have h2 : szV (J.arr xs) = 1 + szL xs := rfl
            omega
          exact ih x hsz
      | obj kvs =>
          rw [show canon (.obj kvs) = .obj (sortPairs (canonObj kvs)) from rfl,
            show canon (.obj (sortPairs (canonObj kvs))) =
              .obj (sortPairs (canonObj (sortPairs (canonObj kvs)))) from rfl]
          have hfix : canonObj (sortPairs (canonObj kvs)) = sortPairs (canonObj kvs) := by
            apply canonObj_fixed
            intro p hp
            have hp2 : p ∈ canonObj kvs := (sortPairs_perm _).mem_iff.mp hp
            obtain ⟨w, hw, hpw⟩ := mem_canonObj hp2
            have hsz : szV w ≤ n := by
              have h1 := szV_mem_obj hw
              have h2 : szV (J.obj kvs) = 1 + szO kvs := rfl
              omega
            rw [hpw]
            exact ih w hsz
          rw [hfix, sortPairs_sortPairs]

theorem canon_canon (v : J) : canon (canon v) = canon v :=
  canon_canon_aux (szV v) v (Nat.le_refl _)

/-- Decoding a canonically written value and re-encoding it reproduces the
written bytes: `serialize_value` is invariant under `canon`. -/
theorem serialize_canon (v : J) : serialize_value (canon v) = serialize_value v := by
  unfold serialize_value
  rw [canon_canon]

/-! ## The value list of one field under one merge key -/

theorem selectFieldRows_sorted (db : DB) (k : String) :
    (selectFieldRows db k).Pairwise rowLe :=
  List.sorted_insertionSort _ _

theorem selectFieldRows_mem {db : DB} {k : String} {r : Row}
    (h : r ∈ selectFieldRows db k) :
    r ∈ db.fieldValues ∧ (r.mergeKey == k) = true := by
  unfold selectFieldRows at h
  rw [List.mem_insertionSort, List.mem_filter] at h
  exact h

theorem shape_decodable {r : Row} (h : ∃ v, r.valueData = serialize_value v) :
    (deserialize_value r.valueData).isSome = true := by
  obtain ⟨v, hv⟩ := h
  rw [hv, deserialize_serialize]
  rfl

theorem serialize_decodeRow {r : Row} {v : J} (hv : r.valueData = serialize_value v) :
    serialize_value (decodeRow r) = r.valueData := by
  rw [decodeRow, hv, deserialize_serialize]
  simp only [Option.getD_some]
  exact serialize_canon v

theorem valuesFor_eq (db : DB) (k f : String) :
    valuesFor db k f =
      ((selectFieldRows db k).filter (·.fieldName == f)).map decodeRow := rfl

theorem valuesFor_sorted (db : DB) (k f : String)
    (hshape : ∀ r ∈ db.fieldValues, ∃ v, r.valueData = serialize_value v) :
    (valuesFor db k f).Pairwise
      (fun a b => strLe (serialize_value a) (serialize_value b) = true) := by
  rw [valuesFor_eq]
  have h1 : ((selectFieldRows db k).filter (·.fieldName == f)).Pairwise rowLe :=
    (selectFieldRows_sorted db k).filter _
  have hp : ((selectFieldRows db k).filter (·.fieldName == f)).Pairwise
      (fun r s => strLe r.valueData s.valueData = true) := by
    refine List.Pairwise.imp_of_mem ?_ h1
    intro a b ha hb hab
    have hfa : a.fieldName = f := by simpa using (List.mem_filter.mp ha).2
    have hfb : b.fieldName = f := by simpa using (List.mem_filter.mp hb).2
    unfold rowLe at hab
    rw [if_pos (hfa.trans hfb.symm)] at hab
    exact hab
  rw [List.pairwise_map]
  refine List.Pairwise.imp_of_mem ?_ hp
  intro a b ha hb hab
  obtain ⟨va, hva⟩ := hshape a (selectFieldRows_mem (List.mem_filter.mp ha).1).1
  obtain ⟨vb, hvb⟩ := hshape b (selectFieldRows_mem (List.mem_filter.mp hb).1).1
  rw [serialize_decodeRow hva, serialize_decodeRow hvb]
  exact hab

theorem valuesFor_nodup (db : DB) (k f : String)
    (hshape : ∀ r ∈ db.fieldValues,
      ∃ v, r.valueData = serialize_value v ∧ r.valueHash = hash_value v)
    (hnd : db.fieldValues.Pairwise (fun r s => samePK r s = false)) :
    (valuesFor db k f).Nodup := by
  rw [valuesFor_eq]
  have h0 : db.fieldValues.Nodup :=
    hnd.imp (fun h he => by rw [he, samePK_refl] at h; cases h)
  have h1 : (selectFieldRows db k).Nodup :=
    ((List.perm_insertionSort rowLe _).nodup_iff).mpr (h0.filter _)
  have hndrows : ((selectFieldRows db k).filter (·.fieldName == f)).Nodup :=
    h1.filter _
  refine List.Nodup.map_on ?_ hndrows
  intro x hx y hy hxy
  have hmx := selectFieldRows_mem (List.mem_filter.mp hx).1
  have hmy := selectFieldRows_mem (List.mem_filter.mp hy).1
  obtain ⟨vx, hvx, hhx⟩ := hshape x hmx.1
  obtain ⟨vy, hvy, hhy⟩ := hshape y hmy.1
  have hdatas : x.valueData = y.valueData := by
    rw [← serialize_decodeRow hvx, ← serialize_decodeRow hvy, hxy]
  have hhash : x.valueHash = y.valueHash := by
    rw [hhx, hhy]
    unfold hash_value
    rw [show serialize_value vx = serialize_value vy from by rw [← hvx, ← hvy, hdatas]]
  have hmk : x.mergeKey = y.mergeKey := by
    have h1 : x.mergeKey = k := by simpa using hmx.2
    have h2 : y.mergeKey = k := by simpa using hmy.2
    rw [h1, h2]
  have hfn : x.fieldName = y.fieldName := by
    have h1 : x.fieldName = f := by simpa using (List.mem_filter.mp hx).2
    have h2 : y.fieldName = f := by simpa using (List.mem_filter.mp hy).2
    rw [h1, h2]
  calc x = ⟨x.mergeKey, x.fieldName, x.valueHash, x.valueData⟩ := rfl
    _ = ⟨y.mergeKey, y.fieldName, y.valueHash, y.valueData⟩ := by
        rw [hmk, hfn, hhash, hdatas]
    _ = y := rfl

/-- C3: for any database state satisfying the store invariants (every row was
written by `serialize_value`/`hash_value`, and no two rows share a primary
key), and any field `f` seen under merge key `k`, the document the export
pass reconstructs assigns `f` the collapse of the field's value list: the
bare value when the value set has exactly one distinct member, the array of
exactly the distinct members when it has two or more — that list having no
duplicates and being sorted by canonical encoding. -/
theorem claim_C3_collapse_rule (db : DB) (key k f : String) (keyVal : J)
    (hshape : ∀ r ∈ db.fieldValues,
      ∃ v, r.valueData = serialize_value v ∧ r.valueHash = hash_value v)
    (hnd : db.fieldValues.Pairwise (fun r s => samePK r s = false))
    (hf : f ≠ key)
    (hseen : (selectFieldRows db k).any (·.fieldName == f) = true) :
    ∃ doc', groupRows (selectFieldRows db k) [(key, keyVal)] none [] = some doc' ∧
      findA doc' f = some (collapse (valuesFor db k f)) ∧
      (∀ v, valuesFor db k f = [v] → findA doc' f = some v) ∧
      (2 ≤ (valuesFor db k f).length → findA doc' f = some (.arr (valuesFor db k f))) ∧
      (valuesFor db k f).Nodup ∧
      (valuesFor db k f).Pairwise
        (fun a b => strLe (serialize_value a) (serialize_value b) = true) := by
  have hd : ∀ r ∈ selectFieldRows db k, (deserialize_value r.valueData).isSome = true :=
    fun r hr => shape_decodable
      (Exists.imp (fun v hv => hv.1) (hshape r (selectFieldRows_mem hr).1))
  obtain ⟨doc', hdoc', hfind⟩ :=
    groupRows_find key keyVal f (selectFieldRows db k) (selectFieldRows_sorted db k) hd hf
  rw [if_pos hseen, ← valuesFor_eq] at hfind
  refine ⟨doc', hdoc', hfind, ?_, ?_,
    valuesFor_nodup db k f hshape hnd,
    valuesFor_sorted db k f (fun r hr => Exists.imp (fun v hv => hv.1) (hshape r hr))⟩
  · intro v hv
    rw [hfind, hv]
    rfl
  · intro hlen
    rcases hvals : valuesFor db k f with _ | ⟨x, _ | ⟨y, t⟩⟩
    · rw [hvals] at hlen
      simp at hlen
    · rw [hvals] at hlen
      simp at hlen
    · rw [hfind, hvals]
      rfl

/-- A two-row store for exercising the collapse rule: one merge key,
one field, two distinct string values. -/
def exC3db : DB :=
  ⟨[("\"K\"", "\"K\"")],
   [⟨"\"K\"", "a", hash_value (.str "x"), serialize_value (.str "x")⟩,
    ⟨"\"K\"", "a", hash_value (.str "y"), serialize_value (.str "y")⟩]⟩

set_option maxRecDepth 1000000 in
/-- Witness for C3 at a concrete store: the field `a` of merge key `"K"` with
the two values `"x"`, `"y"` is assigned their sorted, duplicate-free array. -/
theorem claim_C3_collapse_rule_witness :
    ∃ doc', groupRows (selectFieldRows exC3db "\"K\"") [("id", .str "K")] none [] =
        some doc' ∧
      findA doc' "a" = some (collapse (valuesFor exC3db "\"K\"" "a")) ∧
      (∀ v, valuesFor exC3db "\"K\"" "a" = [v] → findA doc' "a" = some v) ∧
      (2 ≤ (valuesFor exC3db "\"K\"" "a").length →
        findA doc' "a" = some (.arr (valuesFor exC3db "\"K\"" "a"))) ∧
      (valuesFor exC3db "\"K\"" "a").Nodup ∧
      (valuesFor exC3db "\"K\"" "a").Pairwise
        (fun a b => strLe (serialize_value a) (serialize_value b) = true) :=
  claim_C3_collapse_rule exC3db "id" "\"K\"" "a" (.str "K")
    (by
      intro r hr
      rcases List.mem_cons.mp hr with h | h
      · exact ⟨.str "x", by rw [h], by rw [h]⟩
      · rcases List.mem_cons.mp h with h2 | h2
        · exact ⟨.str "y", by rw [h2], by rw [h2]⟩
        · cases h2)
    (by decide) (by decide) (by decide)

/-! ## Well-formedness survives canonicalization -/

theorem wfList_of_mem : ∀ {ys : List J}, (∀ x ∈ ys, wfJ x = true) → wfList ys = true
  | [], _ => rfl
  | x :: t, h => by
      rw [wfList]
      exact andI (h x (List.mem_cons_self x t))
        (wfList_of_mem (fun y hy => h y (List.mem_cons_of_mem x hy)))

theorem wfObj_of_mem : ∀ {l : List (String × J)},
    (∀ p ∈ l, wfJ p.2 = true) → wfObj l = true
  | [], _ => rfl
  | (k, v) :: t, h => by
      rw [wfObj]
      exact andI (h (k, v) (List.mem_cons_self _ _))
        (wfObj_of_mem (fun p hp => h p (List.mem_cons_of_mem _ hp)))

theorem wfJ_canon_aux : ∀ n : Nat, ∀ v : J, szV v ≤ n → wfJ v = true →
    wfJ (canon v) = true := by
  intro n
  induction n with
  | zero =>
      intro v hv _
      exact absurd hv (by have := szV_pos v; omega)
  | succ n ih =>
      intro v hv hw
      cases v with
      | null => exact hw
      | bool b => exact hw
      | num m => exact hw
      | str s => exact hw
      | arr xs =>
          rw [show canon (.arr xs) = .arr (canonList xs) from rfl,
            show wfJ (J.arr (canonList xs)) = wfList (canonList xs) from rfl,
            canonList_eq_map]
          apply wfList_of_mem
          intro y hy
          obtain ⟨x, hx, hxy⟩ := List.mem_map.mp hy
          have hsz : szV x ≤ n := by
            have h1 := szV_mem_arr hx
            have h2 : szV (J.arr xs) = 1 + szL xs := rfl
            omega
          rw [← hxy]
          exact ih x hsz (wfList_mem hw hx)
      | obj kvs =>
          rw [show canon (.obj kvs) = .obj (sortPairs (canonObj kvs)) from rfl,
            show wfJ (J.obj (sortPairs (canonObj kvs))) =
              (distinctKeys (sortPairs (canonObj kvs)) && wfObj (sortPairs (canonObj kvs)))
              from rfl]
          have hwo : wfObj kvs = true := by
            have := hw
            rw [show wfJ (J.obj kvs) = (distinctKeys kvs && wfObj kvs) from rfl] at this
            exact (andE this).2
          have hdk : distinctKeys kvs = true := by
            have := hw
            rw [show wfJ (J.obj kvs) = (distinctKeys kvs && wfObj kvs) from rfl] at this
            exact (andE this).1
          apply andI
          · rw [distinctKeys_iff]
            have hperm : ((sortPairs (canonObj kvs)).map Prod.fst).Perm
                ((canonObj kvs).map Prod.fst) := (sortPairs_perm _).map _
            rw [hperm.nodup_iff, canonObj_map_fst]
            exact distinctKeys_iff.mp hdk
          · apply wfObj_of_mem
            intro p hp
            have hp2 : p ∈ canonObj kvs := (sortPairs_perm _).mem_iff.mp hp
            obtain ⟨w, hwm, hpw⟩ := mem_canonObj hp2
            have hsz : szV w ≤ n := by
              have h1 := szV_mem_obj hwm
              have h2 : szV (J.obj kvs) = 1 + szO kvs := rfl
              omega
            rw [hpw]
            exact ih w hsz (wfObj_mem hwo hwm)

theorem wfJ_canon {v : J} (h : wfJ v = true) : wfJ (canon v) = true :=
  wfJ_canon_aux (szV v) v (Nat.le_refl _) h

/-- The decoded form of an encoded value is semantically equal to the value
that was encoded. -/
theorem semEq_canon {v : J} (h : wfJ v = true) : semEq (canon v) v = true := by
  rw [semEq_iff_canon (wfJ_canon h) h]
  exact canon_canon v

/-! ## Head preservation: the merge-key field stays first in the record -/

theorem assignField_head {doc : List (String × J)} {k0 : String} {kv : J} {g : String}
    (v : J) (hne : g ≠ k0) (hh : doc.head? = some (k0, kv)) :
    (assignField doc g v).head? = some (k0, kv) := by
  unfold assignField
  cases doc with
  | nil => cases hh
  | cons p rest =>
      have hp : p = (k0, kv) := by simpa using hh
      have hb : (p.1 == g) = false := by
        rw [beq_eq_false_iff_ne, hp]
        exact fun he => hne (Eq.symm he)
      by_cases hany : (p :: rest).any (·.1 == g)
      · rw [if_pos hany, List.map_cons, hb]
        rw [show ((if false = true then (g, v) else p) :: List.map
          (fun q => if q.1 == g then (g, v) else q) rest).head? = some p from rfl]
        rw [hp]
      · rw [if_neg hany, List.cons_append]
        rw [show ((p :: (rest ++ [(g, v)])).head? = some p) from rfl, hp]

theorem groupRows_head : ∀ (rows : List Row) (doc : List (String × J))
    (cur : Option String) (vals : List J) {k0 : String} {kv : J},
    (∀ r ∈ rows, r.fieldName ≠ k0) →
    (∀ g, cur = some g → g ≠ k0) →
    doc.head? = some (k0, kv) →
    ∀ doc', groupRows rows doc cur vals = some doc' → doc'.head? = some (k0, kv)
  | [], doc, cur, vals, k0, kv, _, hcur, hh, doc', hdoc' => by
      have hde : doc' = flushField doc cur vals :=
        (Option.some.inj hdoc').symm
      rw [hde]
      cases cur with
      | none => exact hh
      | some g =>
          rw [flushField_eq]
          exact assignField_head _ (hcur g rfl) hh
  | r :: rest, doc, cur, vals, k0, kv, hrows, hcur, hh, doc', hdoc' => by
      cases hv : deserialize_value r.valueData with
      | none =>
          rw [show groupRows (r :: rest) doc cur vals =
            (deserialize_value r.valueData).bind (fun v =>
              if cur = some r.fieldName then groupRows rest doc cur (vals ++ [v])
              else groupRows rest (flushField doc cur vals) (some r.fieldName) [v])
            from rfl, hv] at hdoc'
          exact Option.noConfusion hdoc'
      | some v =>
          rw [groupRows_cons r rest doc cur vals v hv] at hdoc'
          have hrowsrest : ∀ s ∈ rest, s.fieldName ≠ k0 :=
            fun s hs => hrows s (List.mem_cons_of_mem r hs)
          by_cases hc : cur = some r.fieldName
          · rw [if_pos hc] at hdoc'
            exact groupRows_head rest doc cur (vals ++ [v]) hrowsrest hcur hh doc' hdoc'
          · rw [if_neg hc] at hdoc'
            have hh2 : (flushField doc cur vals).head? = some (k0, kv) := by
              cases cur with
              | none => exact hh
              | some g =>
                  rw [flushField_eq]
                  exact assignField_head _ (hcur g rfl) hh
            exact groupRows_head rest (flushField doc cur vals) (some r.fieldName) [v]
              hrowsrest
              (fun g hg => by
                rw [← Option.some.inj hg]
                exact hrows r (List.mem_cons_self r rest))
              hh2 doc' hdoc'

theorem mapOpt_mem {α β : Type} {h : α → Option β} :
    ∀ {l : List α} {out : List β}, mapOpt h l = some out →
      ∀ x ∈ l, ∃ y, h x = some y ∧ y ∈ out := by
  intro l
  induction l with
  | nil =>
      intro out _ x hx
      cases hx
  | cons a t ih =>
      intro out hm x hx
      cases hha : h a with
      | none =>
          rw [mapOpt, hha] at hm
          exact Option.noConfusion hm
      | some y =>
          cases hmt : mapOpt h t with
          | none =>
              rw [mapOpt, hha, hmt] at hm
              exact Option.noConfusion hm
          | some ys =>
              rw [mapOpt, hha, hmt] at hm
              have hm2 : y :: ys = out := Option.some.inj hm
              rcases List.mem_cons.mp hx with he | hxt
              · exact ⟨y, by rw [he]; exact hha,
                  by rw [← hm2]; exact List.mem_cons_self y ys⟩
              · obtain ⟨z, hz1, hz2⟩ := ih hmt x hxt
                exact ⟨z, hz1, by rw [← hm2]; exact List.mem_cons_of_mem y hz2⟩

/-! ## The merge-key registry: first writer wins, keys decode to the original -/

theorem registerKey_noop (t : List (String × String)) (k : String)
    (hdiag : ∀ p ∈ t, p.2 = p.1) (hmem : (k, k) ∈ t) :
    registerKey t k = t := by
  unfold registerKey insertOrReplaceKey
  have hany : t.any (·.1 == k) = true :=
    List.any_eq_true.mpr ⟨(k, k), hmem, by exact beq_self_eq_true k⟩
  rw [if_pos hany]
  have hid : ∀ p ∈ t, (if p.1 == k then (k, k) else p) = p := by
    intro p hp
    by_cases hpk : p.1 = k
    · have hb : (p.1 == k) = true := by
        rw [hpk]
        exact beq_self_eq_true k
      rw [hb]
      have hpe : p = (k, k) := by
        calc p = (p.1, p.2) := rfl
          _ = (k, k) := by rw [hdiag p hp, hpk]
      rw [hpe]
      rfl
    · have hb : (p.1 == k) = false := by
        rw [beq_eq_false_iff_ne]
        exact hpk
      rw [hb]
      rfl
  calc t.map (fun p => if p.1 == k then (k, k) else p)
      = t.map id := List.map_congr_left (fun p hp => (hid p hp).trans rfl)
    _ = t := List.map_id t

/-- C5: registering a merge key again is a no-op — on any registry whose
entries store the encoded key in both columns (as every write does),
re-registering an already present key leaves the table unchanged — and for
any database whose registry holds an encoded key and whose rows never use
the merge-key field name, the exported record for that key carries as its
first field the decoded original value: `canon v`, which re-encodes to the
same bytes and is semantically equal to the first-seen value `v` — never a
stringified or re-encoded form. -/
theorem claim_C5_registry_first_writer :
    (∀ (t : List (String × String)) (k : String),
        (∀ p ∈ t, p.2 = p.1) → (k, k) ∈ t → registerKey t k = t) ∧
    (∀ (db : DB) (key : String) (v : J) (out : List String),
        wfJ v = true →
        (serialize_value v, serialize_value v) ∈ db.mergeKeys →
        (∀ r ∈ db.fieldValues, r.fieldName ≠ key) →
        export_merged_data db key = some out →
        ∃ doc, String.mk (dumps (.obj doc)) ∈ out ∧
          doc.head? = some (key, canon v) ∧
          serialize_value (canon v) = serialize_value v ∧
          semEq (canon v) v = true) := by
  constructor
  · exact registerKey_noop
  · intro db key v out hwf hmem hfields hout
    have hmem2 : (serialize_value v, serialize_value v) ∈ selectMergeKeysSorted db := by
      unfold selectMergeKeysSorted
      rw [List.mem_insertionSort]
      exact hmem
    obtain ⟨y, hy1, hy2⟩ := mapOpt_mem hout _ hmem2
    simp only [] at hy1
    rw [deserialize_serialize] at hy1
    simp only [Option.bind_eq_bind, Option.some_bind] at hy1
    cases hgr : groupRows (selectFieldRows db (serialize_value v))
        [(key, canon v)] none [] with
    | none =>
        rw [hgr] at hy1
        exact Option.noConfusion hy1
    | some doc =>
        rw [hgr] at hy1
        simp only [Option.some_bind] at hy1
        have hy : y = String.mk (dumps (.obj doc)) := (Option.some.inj hy1).symm
        refine ⟨doc, by rw [← hy]; exact hy2, ?_, serialize_canon v, semEq_canon hwf⟩
        exact groupRows_head (selectFieldRows db (serialize_value v))
          [(key, canon v)] none []
          (fun r hr => hfields r (selectFieldRows_mem hr).1)
          (fun g hg => Option.noConfusion hg) rfl doc hgr

set_option maxRecDepth 1000000 in
/-- Witness for C5 at concrete inputs: re-registering `"K"` is a no-op on a
registry already holding it, and the export of a store registering the string
key `"K"` carries `("id", "K")` as the first field of its one output record. -/
theorem claim_C5_registry_first_writer_witness :
    (registerKey [("\"K\"", "\"K\"")] "\"K\"" = [("\"K\"", "\"K\"")]) ∧
    (∃ doc, String.mk (dumps (.obj doc)) ∈ ["\x7b\"id\":\"K\"\x7d"] ∧
      doc.head? = some ("id", canon (.str "K")) ∧
      serialize_value (canon (.str "K")) = serialize_value (.str "K") ∧
      semEq (canon (.str "K")) (.str "K") = true) :=
  ⟨claim_C5_registry_first_writer.1 [("\"K\"", "\"K\"")] "\"K\"" (by decide) (by decide),
   claim_C5_registry_first_writer.2 ⟨[("\"K\"", "\"K\"")], []⟩ "id" (.str "K")
     ["\x7b\"id\":\"K\"\x7d"] (by decide) (by decide)
     (by intro r hr; cases hr) rfl⟩

/-! ## Order invariance: the reconciled database is a function of the record set -/

theorem rowsOfField_shape {mk fn : String} {v : J} {r : Row}
    (h : r ∈ rowsOfField mk fn v) :
    ∃ w, r.valueData = serialize_value w ∧ r.valueHash = hash_value w := by
  cases v with
  | arr elems =>
      obtain ⟨x, _, hx⟩ := List.mem_map.mp h
      exact ⟨x, by rw [← hx], by rw [← hx]⟩
  | null =>
      rcases List.mem_cons.mp h with he | he
      · exact ⟨.null, by rw [he], by rw [he]⟩
      · cases he
  | bool b =>
      rcases List.mem_cons.mp h with he | he
      · exact ⟨.bool b, by rw [he], by rw [he]⟩
      · cases he
  | num n =>
      rcases List.mem_cons.mp h with he | he
      · exact ⟨.num n, by rw [he], by rw [he]⟩
      · cases he
  | str s =>
      rcases List.mem_cons.mp h with he | he
      · exact ⟨.str s, by rw [he], by rw [he]⟩
      · cases he
  | obj kvs =>
      rcases List.mem_cons.mp h with he | he
      · exact ⟨.obj kvs, by rw [he], by rw [he]⟩
      · cases he

theorem lineRows_shape {key : String} {l : Line} {r : Row} (h : r ∈ lineRows key l) :
    ∃ w, r.valueData = serialize_value w ∧ r.valueHash = hash_value w := by
  cases l with
  | blank => cases h
  | malformed m => cases h
  | doc v =>
      cases v with
      | obj kvs =>
          rw [lineRows] at h
          by_cases hc : kvs.any (·.1 == key) = true
          · rw [if_pos hc] at h
            cases hq : kvs.find? (·.1 == key) with
            | none => rw [hq] at h; cases h
            | some q =>
                rw [hq] at h
                obtain ⟨kv, _, hkv⟩ := List.mem_flatMap.mp h
                exact rowsOfField_shape hkv
          · rw [if_neg hc] at h
            cases h
      | null => cases h
      | bool b => cases h
      | num n => cases h
      | str s => cases h
      | arr xs => cases h

theorem mem_foldl_insert_of_mem {x : Row} :
    ∀ (rows : List Row) {t : List Row}, x ∈ t → x ∈ rows.foldl insertRowIgnore t
  | [], _, hx => hx
  | r :: rest, _, hx =>
      mem_foldl_insert_of_mem rest (mem_insertRowIgnore r hx)

theorem mem_of_foldl_insert {x : Row} :
    ∀ (rows : List Row) {t : List Row},
      x ∈ rows.foldl insertRowIgnore t → x ∈ t ∨ x ∈ rows := by
  intro rows
  induction rows with
  | nil =>
      intro t hx
      exact Or.inl hx
  | cons r rest ih =>
      intro t hx
      rcases ih hx with h1 | h1
      · unfold insertRowIgnore at h1
        by_cases hc : t.any (samePK · r) = true
        · rw [if_pos hc] at h1
          exact Or.inl h1
        · rw [if_neg hc] at h1
          rcases List.mem_append.mp h1 with h2 | h2
          · exact Or.inl h2
          · rcases List.mem_cons.mp h2 with h3 | h3
            · exact Or.inr (h3 ▸ List.mem_cons_self r rest)
            · cases h3
      · exact Or.inr (List.mem_cons_of_mem r h1)

theorem mem_foldl_insert {x : Row} :
    ∀ (rows : List Row) (t : List Row),
      (∀ r s : Row, r ∈ t ++ rows → s ∈ t ++ rows → samePK r s = true → r = s) →
      (x ∈ rows.foldl insertRowIgnore t ↔ x ∈ t ∨ x ∈ rows) := by
  intro rows
  induction rows with
  | nil =>
      intro t _
      simp
  | cons r rest ih =>
      intro t hinj
      have hsub : ∀ y : Row, y ∈ insertRowIgnore t r ++ rest → y ∈ t ++ r :: rest := by
        intro y hy
        rcases List.mem_append.mp hy with h1 | h1
        · unfold insertRowIgnore at h1
          by_cases hc : t.any (samePK · r) = true
          · rw [if_pos hc] at h1
            exact List.mem_append.mpr (Or.inl h1)
          · rw [if_neg hc] at h1
            rcases List.mem_append.mp h1 with h2 | h2
            · exact List.mem_append.mpr (Or.inl h2)
            · rcases List.mem_cons.mp h2 with h3 | h3
              · exact List.mem_append.mpr (Or.inr (h3 ▸ List.mem_cons_self r rest))
              · cases h3
        · exact List.mem_append.mpr (Or.inr (List.mem_cons_of_mem r h1))
      have hinj2 : ∀ a b : Row, a ∈ insertRowIgnore t r ++ rest →
          b ∈ insertRowIgnore t r ++ rest → samePK a b = true → a = b :=
        fun a b ha hb => hinj a b (hsub a ha) (hsub b hb)
      constructor
      · intro hx
        rcases mem_of_foldl_insert (r :: rest) hx with h1 | h1
        · exact Or.inl h1
        · exact Or.inr h1
      · intro hx
        rw [List.foldl_cons]
        rcases hx with h1 | h1
        · exact mem_foldl_insert_of_mem rest (mem_insertRowIgnore r h1)
        · rcases List.mem_cons.mp h1 with h2 | h2
          · subst h2
            apply (ih (insertRowIgnore t x) hinj2).mpr
            left
            unfold insertRowIgnore
            by_cases hc : t.any (samePK · x) = true
            · rw [if_pos hc]
              obtain ⟨u, hu, hupk⟩ := List.any_eq_true.mp hc
              have : u = x := hinj u x (List.mem_append.mpr (Or.inl hu))
                (List.mem_append.mpr (Or.inr (List.mem_cons_self x rest))) hupk
              exact this ▸ hu
            · rw [if_neg hc]
              exact List.mem_append.mpr (Or.inr (List.mem_cons_self x []))
          · exact (ih (insertRowIgnore t r) hinj2).mpr (Or.inr h2)

theorem foldl_insert_pairwise :
    ∀ (rows : List Row) (t : List Row),
      t.Pairwise (fun r s => samePK r s = false) →
      (rows.foldl insertRowIgnore t).Pairwise (fun r s => samePK r s = false) := by
  intro rows
  induction rows with
  | nil =>
      intro t ht
      exact ht
  | cons r rest ih =>
      intro t ht
      rw [List.foldl_cons]
      apply ih
      unfold insertRowIgnore
      by_cases hc : t.any (samePK · r) = true
      · rw [if_pos hc]
        exact ht
      · rw [if_neg hc]
        rw [List.pairwise_append]
        refine ⟨ht, List.pairwise_singleton _ _, ?_⟩
        intro a ha b hb
        rcases List.mem_cons.mp hb with h1 | h1
        · subst h1
          cases hpk : samePK a b
          · rfl
          · exact absurd (List.any_eq_true.mpr ⟨a, ha, hpk⟩) hc
        · cases h1

theorem registerKey_eq (t : List (String × String)) (k : String)
    (hdiag : ∀ p ∈ t, p.2 = p.1) :
    registerKey t k = if t.any (·.1 == k) = true then t else t ++ [(k, k)] := by
  by_cases hany : t.any (·.1 == k) = true
  · rw [if_pos hany]
    obtain ⟨p, hp, hpk⟩ := List.any_eq_true.mp hany
    have hp1 : p.1 = k := by simpa using hpk
    have hpe : p = (k, k) := by
      calc p = (p.1, p.2) := rfl
        _ = (k, k) := by rw [hdiag p hp, hp1]
    exact registerKey_noop t k hdiag (hpe ▸ hp)
  · rw [if_neg hany]
    unfold registerKey insertOrReplaceKey
    rw [if_neg hany]

theorem regfold_diag : ∀ (ks : List String) (t : List (String × String)),
    (∀ p ∈ t, p.2 = p.1) → ∀ p ∈ ks.foldl registerKey t, p.2 = p.1 := by
  intro ks
  induction ks with
  | nil =>
      intro t ht p hp
      exact ht p hp
  | cons k rest ih =>
      intro t ht
      rw [List.foldl_cons]
      apply ih
      rw [registerKey_eq t k ht]
      by_cases hany : t.any (·.1 == k) = true
      · rw [if_pos hany]
        exact ht
      · rw [if_neg hany]
        intro p hp
        rcases List.mem_append.mp hp with h1 | h1
        · exact ht p h1
        · rcases List.mem_cons.mp h1 with h2 | h2
          · rw [h2]
          · cases h2

theorem regfold_mem : ∀ (ks : List String) (t : List (String × String)),
    (∀ p ∈ t, p.2 = p.1) →
    ∀ x : String × String,
      (x ∈ ks.foldl registerKey t ↔ x ∈ t ∨ ∃ k ∈ ks, x = (k, k)) := by
  intro ks
  induction ks with
  | nil =>
      intro t _ x
      simp
  | cons k rest ih =>
      intro t ht x
      rw [List.foldl_cons]
      have ht2 : ∀ p ∈ registerKey t k, p.2 = p.1 := by
        intro p hp
        have := regfold_diag [k] t ht p
        rw [List.foldl_cons] at this
        exact this hp
      rw [ih (registerKey t k) ht2 x]
      have hmem : x ∈ registerKey t k ↔ x ∈ t ∨ x = (k, k) := by
        rw [registerKey_eq t k ht]
        by_cases hany : t.any (·.1 == k) = true
        · rw [if_pos hany]
          constructor
          · exact Or.inl
          · intro h
            rcases h with h1 | h1
            · exact h1
            · obtain ⟨p, hp, hpk⟩ := List.any_eq_true.mp hany
              have hp1 : p.1 = k := by simpa using hpk
              have hpe : p = (k, k) := by
                calc p = (p.1, p.2) := rfl
                  _ = (k, k) := by rw [ht p hp, hp1]
              rw [h1, ← hpe]
              exact hp
        · rw [if_neg hany]
          constructor
          · intro h
            rcases List.mem_append.mp h with h1 | h1
            · exact Or.inl h1
            · rcases List.mem_cons.mp h1 with h2 | h2
              · exact Or.inr h2
              · cases h2
          · intro h
            rcases h with h1 | h1
            · exact List.mem_append.mpr (Or.inl h1)
            · exact List.mem_append.mpr (Or.inr (h1 ▸ List.mem_cons_self _ _))
      rw [hmem]
      constructor
      · intro h
        rcases h with (h1 | h1) | h1
        · exact Or.inl h1
        · exact Or.inr ⟨k, List.mem_cons_self k rest, h1⟩
        · obtain ⟨k', hk', he⟩ := h1
          exact Or.inr ⟨k', List.mem_cons_of_mem k hk', he⟩
      · intro h
        rcases h with h1 | h1
        · exact Or.inl (Or.inl h1)
        · obtain ⟨k', hk', he⟩ := h1
          rcases List.mem_cons.mp hk' with h2 | h2
          · exact Or.inl (Or.inr (by rw [he, h2]))
          · exact Or.inr ⟨k', h2, he⟩

theorem regfold_nodup : ∀ (ks : List String) (t : List (String × String)),
    (t.map Prod.fst).Nodup → (∀ p ∈ t, p.2 = p.1) →
    ((ks.foldl registerKey t).map Prod.fst).Nodup := by
  intro ks
  induction ks with
  | nil =>
      intro t ht _
      exact ht
  | cons k rest ih =>
      intro t ht hd
      rw [List.foldl_cons]
      have hd2 : ∀ p ∈ registerKey t k, p.2 = p.1 := by
        intro p hp
        have := regfold_diag [k] t hd p
        rw [List.foldl_cons] at this
        exact this hp
      apply ih _ _ hd2
      rw [registerKey_eq t k hd]
      by_cases hany : t.any (·.1 == k) = true
      · rw [if_pos hany]
        exact ht
      · rw [if_neg hany]
        rw [List.map_append]
        apply List.Nodup.append ht (List.nodup_singleton k)
        intro a ha hak
        have hak2 : a = k := by simpa using hak
        obtain ⟨p, hp, hpa⟩ := List.mem_map.mp ha
        apply hany
        apply List.any_eq_true.mpr
        refine ⟨p, hp, ?_⟩
        have : p.1 = k := by rw [hpa, hak2]
        simpa using this

theorem row_ext {r s : Row} (h1 : r.mergeKey = s.mergeKey) (h2 : r.fieldName = s.fieldName)
    (h3 : r.valueHash = s.valueHash) (h4 : r.valueData = s.valueData) : r = s := by
  calc r = ⟨r.mergeKey, r.fieldName, r.valueHash, r.valueData⟩ := rfl
    _ = ⟨s.mergeKey, s.fieldName, s.valueHash, s.valueData⟩ := by rw [h1, h2, h3, h4]
    _ = s := rfl

theorem pk_inj_of_collision_free {key : String} {l : List Line}
    (hcol : ∀ r s : Row, r ∈ l.flatMap (lineRows key) → s ∈ l.flatMap (lineRows key) →
      r.valueHash = s.valueHash → r.valueData = s.valueData) :
    ∀ r s : Row, r ∈ l.flatMap (lineRows key) → s ∈ l.flatMap (lineRows key) →
      samePK r s = true → r = s := by
  intro r s hr hs hpk
  unfold samePK at hpk
  have h12 := andE hpk
  have hab := andE h12.1
  have h1 : r.mergeKey = s.mergeKey := by simpa using hab.1
  have h2 : r.fieldName = s.fieldName := by simpa using hab.2
  have h3 : r.valueHash = s.valueHash := by simpa using h12.2
  exact row_ext h1 h2 h3 (hcol r s hr hs h3)

theorem runRows_perm {key : String} {l₁ l₂ : List Line} (hp : l₁.Perm l₂)
    (hinj : ∀ r s : Row, r ∈ l₁.flatMap (lineRows key) → s ∈ l₁.flatMap (lineRows key) →
      samePK r s = true → r = s) :
    (runRows key l₁).Perm (runRows key l₂) := by
  have hpp : (l₁.flatMap (lineRows key)).Perm (l₂.flatMap (lineRows key)) :=
    hp.flatMap_right _
  have hinj₂ : ∀ r s : Row, r ∈ l₂.flatMap (lineRows key) →
      s ∈ l₂.flatMap (lineRows key) → samePK r s = true → r = s :=
    fun r s hr hs => hinj r s (hpp.mem_iff.mpr hr) (hpp.mem_iff.mpr hs)
  have hnodup : ∀ (l : List Line), (runRows key l).Nodup := by
    intro l
    have := foldl_insert_pairwise (l.flatMap (lineRows key)) [] (List.Pairwise.nil)
    exact this.imp (fun h he => by rw [he, samePK_refl] at h; cases h)
  apply (List.perm_ext_iff_of_nodup (hnodup l₁) (hnodup l₂)).mpr
  intro x
  unfold runRows
  rw [mem_foldl_insert (l₁.flatMap (lineRows key)) [] hinj,
    mem_foldl_insert (l₂.flatMap (lineRows key)) [] hinj₂]
  simp only [List.not_mem_nil, false_or]
  exact hpp.mem_iff

theorem runKeys_perm {key : String} {l₁ l₂ : List Line} (hp : l₁.Perm l₂) :
    (runKeys key l₁).Perm (runKeys key l₂) := by
  have hpp : (l₁.flatMap (lineKeys key)).Perm (l₂.flatMap (lineKeys key)) :=
    hp.flatMap_right _
  have hnodup : ∀ (l : List Line), (runKeys key l).Nodup := by
    intro l
    exact (regfold_nodup (l.flatMap (lineKeys key)) [] List.Pairwise.nil
      (fun p hp2 => absurd hp2 (List.not_mem_nil p))).of_map
  apply (List.perm_ext_iff_of_nodup (hnodup l₁) (hnodup l₂)).mpr
  intro x
  unfold runKeys
  rw [regfold_mem _ [] (fun p hp2 => absurd hp2 (List.not_mem_nil p)) x,
    regfold_mem _ [] (fun p hp2 => absurd hp2 (List.not_mem_nil p)) x]
  simp only [List.not_mem_nil, false_or]
  constructor
  · intro h
    obtain ⟨k, hk, he⟩ := h
    exact ⟨k, hpp.mem_iff.mp hk, he⟩
  · intro h
    obtain ⟨k, hk, he⟩ := h
    exact ⟨k, hpp.mem_iff.mpr hk, he⟩

theorem runKeys_diag {key : String} {l : List Line} :
    ∀ p ∈ runKeys key l, p.2 = p.1 :=
  regfold_diag _ [] (fun p hp2 => absurd hp2 (List.not_mem_nil p))

theorem selectMergeKeysSorted_eq {key : String} {l₁ l₂ : List Line}
    (hp : l₁.Perm l₂) :
    selectMergeKeysSorted (runDB key l₁) = selectMergeKeysSorted (runDB key l₂) := by
  have hkp : (runKeys key l₁).Perm (runKeys key l₂) := runKeys_perm hp
  apply eq_of_perm_sorted_on
  · exact ((List.perm_insertionSort keyRowLe _).trans hkp).trans
      (List.perm_insertionSort keyRowLe _).symm
  · exact List.sorted_insertionSort _ _
  · exact List.sorted_insertionSort _ _
  · intro a ha b hb hab hba
    have ha2 : a ∈ runKeys key l₁ := by
      have h0 := ha
      unfold selectMergeKeysSorted at h0
      rw [List.mem_insertionSort] at h0
      exact h0
    have hb2 : b ∈ runKeys key l₁ := by
      have h0 := hb
      unfold selectMergeKeysSorted at h0
      rw [List.mem_insertionSort] at h0
      exact h0
    have h1 : a.1 = b.1 := strLe_antisymm hab hba
    calc a = (a.1, a.2) := rfl
      _ = (b.1, b.2) := by rw [runKeys_diag a ha2, runKeys_diag b hb2, h1]
      _ = b := rfl

theorem runRows_shape {key : String} {l : List Line} {r : Row}
    (h : r ∈ runRows key l) :
    ∃ w, r.valueData = serialize_value w ∧ r.valueHash = hash_value w := by
  rcases mem_of_foldl_insert _ h with h1 | h1
  · cases h1
  · obtain ⟨ln, _, hr⟩ := List.mem_flatMap.mp h1
    exact lineRows_shape hr

theorem selectFieldRows_eq {key : String} {l₁ l₂ : List Line} (hp : l₁.Perm l₂)
    (hinj : ∀ r s : Row, r ∈ l₁.flatMap (lineRows key) → s ∈ l₁.flatMap (lineRows key) →
      samePK r s = true → r = s) (k : String) :
    selectFieldRows (runDB key l₁) k = selectFieldRows (runDB key l₂) k := by
  have hrp : (runRows key l₁).Perm (runRows key l₂) := runRows_perm hp hinj
  apply eq_of_perm_sorted_on
  · exact ((List.perm_insertionSort rowLe _).trans (hrp.filter _)).trans
      (List.perm_insertionSort rowLe _).symm
  · exact List.sorted_insertionSort _ _
  · exact List.sorted_insertionSort _ _
  · intro a ha b hb hab hba
    have ha2 : a ∈ runRows key l₁ ∧ (a.mergeKey == k) = true := by
      have h0 := ha
      unfold selectFieldRows at h0
      rw [List.mem_insertionSort, List.mem_filter] at h0
      exact h0
    have hb2 : b ∈ runRows key l₁ ∧ (b.mergeKey == k) = true := by
      have h0 := hb
      unfold selectFieldRows at h0
      rw [List.mem_insertionSort, List.mem_filter] at h0
      exact h0
    have hfn : a.fieldName = b.fieldName := by
      by_cases hf : a.fieldName = b.fieldName
      · exact hf
      · unfold rowLe at hab hba
        rw [if_neg hf] at hab
        rw [if_neg (fun he => hf he.symm)] at hba
        exact strLe_antisymm hab hba
    have hvd : a.valueData = b.valueData := by
      unfold rowLe at hab hba
      rw [if_pos hfn] at hab
      rw [if_pos hfn.symm] at hba
      exact strLe_antisymm hab hba
    have hmk : a.mergeKey = b.mergeKey := by
      have h1 : a.mergeKey = k := by simpa using ha2.2
      have h2 : b.mergeKey = k := by simpa using hb2.2
      rw [h1, h2]
    have hvh : a.valueHash = b.valueHash := by
      obtain ⟨va, hva, hha⟩ := runRows_shape ha2.1
      obtain ⟨vb, hvb, hhb⟩ := runRows_shape hb2.1
      rw [hha, hhb]
      unfold hash_value
      rw [show serialize_value va = serialize_value vb from by rw [← hva, ← hvb, hvd]]
    exact row_ext hmk hfn hvh hvd

theorem perm_any {α : Type} {p : α → Bool} {l₁ l₂ : List α} (h : l₁.Perm l₂) :
    l₁.any p = l₂.any p := by
  cases hb : l₂.any p with
  | true =>
      obtain ⟨x, hx, hpx⟩ := List.any_eq_true.mp hb
      exact List.any_eq_true.mpr ⟨x, h.mem_iff.mpr hx, hpx⟩
  | false =>
      cases hb1 : l₁.any p with
      | false => rfl
      | true =>
          obtain ⟨x, hx, hpx⟩ := List.any_eq_true.mp hb1
          have := List.any_eq_true.mpr ⟨x, h.mem_iff.mp hx, hpx⟩
          rw [this] at hb
          cases hb

/-- C10: the exported output stream is invariant under permutation of the
input lines, assuming the stored hashes are collision-free on the rows the
input generates (distinct encoded values never share a SHA-256).  Aborted
runs stay aborted under permutation (a fatal line is fatal wherever it
appears), and successful runs export byte-identical line lists: the result
depends only on the set of records, not on their order or on the batching
parameters' timing. -/
theorem claim_C10_order_invariance (l₁ l₂ : List Line) (key : String) (bs pi : Nat)
    (hp : l₁.Perm l₂)
    (hcol : ∀ r ∈ l₁.flatMap (lineRows key), ∀ s ∈ l₁.flatMap (lineRows key),
      r.valueHash = s.valueHash → r.valueData = s.valueData) :
    runOutput (stream_merge_jsonl_optimized l₁ key bs pi) =
      runOutput (stream_merge_jsonl_optimized l₂ key bs pi) := by
  by_cases hfat : l₁.any (lineFatal key) = true
  · have hfat2 : l₂.any (lineFatal key) = true := by
      rw [← perm_any hp]
      exact hfat
    obtain ⟨e1, he1⟩ := stream_merge_error l₁ key bs pi hfat
    obtain ⟨e2, he2⟩ := stream_merge_error l₂ key bs pi hfat2
    rw [he1, he2]
    rfl
  · have hff1 : ∀ l ∈ l₁, lineFatal key l = false := by
      intro l hl
      cases hb : lineFatal key l with
      | false => rfl
      | true => exact absurd (List.any_eq_true.mpr ⟨l, hl, hb⟩) hfat
    have hff2 : ∀ l ∈ l₂, lineFatal key l = false :=
      fun l hl => hff1 l (hp.mem_iff.mpr hl)
    rw [stream_merge_output l₁ key bs pi hff1, stream_merge_output l₂ key bs pi hff2]
    have hinj := pk_inj_of_collision_free (fun r s hr hs => hcol r hr s hs)
    unfold export_merged_data
    rw [selectMergeKeysSorted_eq hp]
    congr 1
    funext kv
    rw [selectFieldRows_eq hp hinj kv.1]

set_option maxRecDepth 1000000 in
/-- Witness for C10 at a concrete permuted pair: swapping the two records of
one merge key leaves the exported output identical (their two `a` values are
collision-free). -/
theorem claim_C10_order_invariance_witness :
    runOutput (stream_merge_jsonl_optimized
      [.doc (.obj [("id", .num 1), ("a", .num 2)]),
       .doc (.obj [("id", .num 1), ("a", .num 3)])] "id" 1000 10000) =
    runOutput (stream_merge_jsonl_optimized
      [.doc (.obj [("id", .num 1), ("a", .num 3)]),
       .doc (.obj [("id", .num 1), ("a", .num 2)])] "id" 1000 10000) :=
  claim_C10_order_invariance
    [.doc (.obj [("id", .num 1), ("a", .num 2)]),
     .doc (.obj [("id", .num 1), ("a", .num 3)])]
    [.doc (.obj [("id", .num 1), ("a", .num 3)]),
     .doc (.obj [("id", .num 1), ("a", .num 2)])]
    "id" 1000 10000 (by decide) (by decide)
